import Mathlib

/-!
Verification of the CO2MPAS-TA dispatcher core and its surrounding glue code.

The repository wires small numerical functions into a shared computation
graph resolved by a dispatcher engine.  This file gives a shallow embedding
of the parts of the program the checked claims are about:

* the branch-eligibility predicates of the cycle model
  (co2mpas/model/physical/cycle/__init__.py);
* the report extraction generator (co2mpas/sampling/report.py);
* the dispatcher core itself.  The Dispatcher class
  (co2mpas.dispatcher / compas.dispatcher) is not among the provided
  sources - only its callers (model wiring, draw.py) are - so the resolver
  is modelled from the specification, with the return-value order and the
  stored workflow attribute taken from the evidence in dispatcher/draw.py.
-/

namespace CO2

/-- A runtime value flowing through the graph: Python objects are modelled
by a small inductive with structural equality (ints, strings, booleans,
`None`, and pairs standing in for tuples). -/
inductive Value where
  | vint (n : Int)
  | vstr (s : String)
  | vbool (b : Bool)
  | vnone
  | vpair (a b : Value)
deriving DecidableEq, Repr

/-! ## Cycle-model branch predicates (src/co2mpas/model/physical/cycle/__init__.py) -/

/-- Substring test: Python's `needle in hay` on strings. -/
def strContains (needle hay : String) : Bool :=
  hay.toList.tails.any (fun t => needle.toList.isPrefixOf t)

/-- The key test shared by `is_nedc` and `is_wltp`:
`':cycle_type' in k or 'cycle_type' == k`. -/
def keyMatch (k : String) : Bool :=
  strContains ":cycle_type" k || k == "cycle_type"

/-- `is_nedc(kwargs)`: iterates the mapping in order and, at the first key
matching `cycle_type`, returns whether its value equals `'NEDC'`;
returns `False` when no key matches. -/
def is_nedc : List (String × Value) → Bool
  | [] => false
  | (k, v) :: kw => if keyMatch k then v == Value.vstr "NEDC" else is_nedc kw

/-- `is_wltp(kwargs)`: same traversal as `is_nedc` but comparing the value
of the first matching key against `'WLTP'`. -/
def is_wltp : List (String × Value) → Bool
  | [] => false
  | (k, v) :: kw => if keyMatch k then v == Value.vstr "WLTP" else is_wltp kw

/-! ## Report extraction (src/co2mpas/sampling/report.py) -/

/-- The `PFiles` triple of input/output/other file paths handed to
`Report.yield_report_tuples_from_iofiles`. -/
structure PFiles where
  inp : List String
  out : List String
  other : List String
deriving DecidableEq, Repr

/-- The third slot of a yielded tuple: for input files an ordered dict
`[('report_type','input_report'), ('vehicle_family_id', vfid)]` (captured by
its `vfid`), for output files the extracted dice-report dataframe, for other
files `None`. -/
inductive Rep where
  | inpRep (vfid : Value)
  | outRep (df : Value)
  | noRep
deriving DecidableEq, Repr

/-- One yielded 3-tuple `(fpath, iokind, report)`. -/
abbrev RTuple : Type := String × String × Rep

/-- `check_vfid_missmatch`: if no expectation is recorded yet, record the
file's id; otherwise on mismatch warn (when `--force`) or raise
`CmdException`.  The `Except` error is the exception message. -/
def checkVfid (force : Bool) (exp : Option Value) (fpath : String)
    (fileVfid : Value) : Except String (Option Value) :=
  match exp with
  | none => .ok (some fileVfid)
  | some e =>
    if e = fileVfid then .ok (some e)
    else if force then .ok (some e)
    else .error ("Mismatch vehicle_family_id between file " ++ fpath ++
      " and the rest")

/-- The loop over `iofiles.inp`: converts each path, extracts the input
vehicle-family id, runs the mismatch check and yields
`(fpath, 'inp', <input report>)`. -/
def procInp (force : Bool) (conv : String → String) (exInp : String → Value) :
    List String → Option Value → Except String (Option Value × List RTuple)
  | [], exp => .ok (exp, [])
  | fp :: rest, exp =>
    match checkVfid force exp (conv fp) (exInp (conv fp)) with
    | .error m => .error m
    | .ok exp' =>
      match procInp force conv exInp rest exp' with
      | .error m => .error m
      | .ok (e2, ts) =>
        .ok (e2, (conv fp, "inp", Rep.inpRep (exInp (conv fp))) :: ts)

/-- The loop over `iofiles.out`: extracts `(vfid, dice_report)` from each
output file, runs the mismatch check and yields `(fpath, 'out', report)`. -/
def procOut (force : Bool) (conv : String → String)
    (exOut : String → Value × Value) :
    List String → Option Value → Except String (Option Value × List RTuple)
  | [], exp => .ok (exp, [])
  | fp :: rest, exp =>
    match checkVfid force exp (conv fp) (exOut (conv fp)).1 with
    | .error m => .error m
    | .ok exp' =>
      match procOut force conv exOut rest exp' with
      | .error m => .error m
      | .ok (e2, ts) =>
        .ok (e2, (conv fp, "out", Rep.outRep (exOut (conv fp)).2) :: ts)

/-- `Report.yield_report_tuples_from_iofiles(iofiles, expected_vfid)`,
consumed to a list.  `conv` stands for `pndlu.convpath`, `exInp` for
`extract_vfid_from_input` and `exOut` for `extract_dice_report_from_output`
(all external to the resolver).  The generator's first statement reassigns
`expected_vfid = None` (report.py line 93), so the parameter is dead; a
raised `CmdException` is the `.error` case. -/
def yield_report_tuples (force : Bool) (conv : String → String)
    (exInp : String → Value) (exOut : String → Value × Value)
    (iofiles : PFiles) (expected_vfid : Option Value) :
    Except String (List RTuple) :=
  let expected : Option Value := none
  match procInp force conv exInp iofiles.inp expected with
  | .error m => .error m
  | .ok (e1, t1) =>
    match procOut force conv exOut iofiles.out e1 with
    | .error m => .error m
    | .ok (_, t2) =>
      .ok (t1 ++ t2 ++ iofiles.other.map (fun fp => (conv fp, "other", Rep.noRep)))

/-! ## The dispatcher core

Modelled from the spec: the Dispatcher class (compas.dispatcher /
co2mpas.dispatcher) is not among the provided sources, only its callers
are.  The capability graph, the weighted AND/OR best-first resolution loop
(spec section 4.2), domain gating, lazy invocation, failure absorption and
the workflow recorder are therefore reconstructed from the specification's
words.  Two details are taken from the in-repo evidence of
src/dispatcher/draw.py instead: `dispatch` returns the pair
`(workflow, outputs)` (line 74: `w, o = dsp.dispatch()`) and the workflow
is also stored on the dispatcher object (lines 83 and 201: `dsp.workflow`).
-/

/-- A Function node: id, ordered required inputs (AND semantics), ordered
produced outputs, non-negative weight, optional input-domain predicate over
the raw externally supplied inputs, and the callable.  The callable returns
`none` to model a Python exception raised during invocation. -/
structure FuncNode where
  fid : String
  inputs : List String
  outputs : List String
  weight : ℤ
  domain : Option (List (String × Value) → Bool)
  call : List Value → Option (List Value)

/-- A Data node: id and optional default value. -/
structure DataNode where
  did : String
  default : Option Value
deriving DecidableEq, Repr

/-- The static capability graph: registered data nodes and function nodes.
A function's registration order index (its position in `funcs`) is its
identity during resolution and the final deterministic tie-break. -/
structure Graph where
  datas : List DataNode
  funcs : List FuncNode

/-- Wellformedness of a registered graph: weights are non-negative and
data ids are unique (spec section 3 invariants). -/
abbrev GraphWF (g : Graph) : Prop :=
  (∀ f ∈ g.funcs, 0 ≤ f.weight) ∧ (g.datas.map (·.did)).Nodup

/-- Wellformedness of a supplied inputs map: it is a dict, so keys are
unique. -/
abbrev InputsWF (inputs : List (String × Value)) : Prop :=
  (inputs.map Prod.fst).Nodup

/-- One settlement: the data id, the value assigned, the resolution cost,
and the producer (`some i` = function with registration index `i`,
`none` = supplied input or default, i.e. reachable from START). -/
structure Settlement where
  sid : String
  value : Value
  cost : ℤ
  producer : Option Nat
deriving DecidableEq, Repr

/-- One recorded function invocation: registration index, the argument
values consumed and the output values produced. -/
structure Invocation where
  idx : Nat
  args : List Value
  outs : List Value
deriving DecidableEq, Repr

/-- The mutable per-run resolution state: settlements in settlement order,
invocations in invocation order, and the permanently discarded (failed)
function indices. -/
structure RState where
  settled : List Settlement
  invocations : List Invocation
  failed : List Nat
deriving DecidableEq, Repr

/-- The workflow recorder's output for one run: the settlements (data
nodes visited with the value and cost that flowed), the function
invocations in order, and the failed-node annotations. -/
structure Workflow where
  settles : List Settlement
  invocations : List Invocation
  failures : List Nat
deriving DecidableEq, Repr

/-- The settlement of a data id in a state, if any (first match). -/
def entryOf (st : RState) (d : String) : Option Settlement :=
  st.settled.find? (·.sid == d)

/-- Whether a data id is settled. -/
def settledQ (st : RState) (d : String) : Bool :=
  (entryOf st d).isSome

/-- The cost at which a data id settled, if settled. -/
def costOf (st : RState) (d : String) : Option ℤ :=
  (entryOf st d).map (·.cost)

/-- `weight + max(cost of each required input)` needs the max of the
settled input costs: `none` while some input is unsettled; a function with
no inputs is reachable from START at cost `0`. -/
def readyCost (st : RState) (ins : List String) : Option ℤ :=
  ins.foldr
    (fun d acc =>
      match costOf st d, acc with
      | some c, some m => some (max c m)
      | _, _ => none)
    (some 0)

/-- Evaluate a function node's input-domain predicate against the raw
supplied inputs; a node with no predicate is always in domain. -/
def domainOK (f : FuncNode) (inputs : List (String × Value)) : Bool :=
  match f.domain with
  | none => true
  | some p => p inputs

/-- A pending queue entry: the candidate settlement cost for a data id
with a given producer function index. -/
structure Cand where
  cost : ℤ
  cid : String
  cf : Nat
deriving DecidableEq, Repr

/-- All data ids that some registered function produces, in first
occurrence order. -/
def outIds (g : Graph) : List String :=
  (g.funcs.flatMap (·.outputs)).dedup

/-- The candidate entries for one unsettled data id `d`: one per
non-discarded, in-domain producer of `d` whose required inputs are all
settled, at cost `weight + max(input costs)`, in registration order. -/
def candsFor (g : Graph) (inputs : List (String × Value)) (st : RState)
    (d : String) : List Cand :=
  g.funcs.enum.filterMap (fun p =>
    if d ∈ p.2.outputs ∧ p.1 ∉ st.failed ∧ domainOK p.2 inputs = true then
      match readyCost st p.2.inputs with
      | some m => some ⟨p.2.weight + m, d, p.1⟩
      | none => none
    else none)

/-- The whole pending queue of the lazy-deletion Dijkstra variant,
recomputed from the state: entries for every unsettled producible id. -/
def candidates (g : Graph) (inputs : List (String × Value)) (st : RState) :
    List Cand :=
  ((outIds g).filter (fun d => ¬ settledQ st d)).flatMap
    (candsFor g inputs st)

/-- Pop the lowest-cost entry; on equal costs the earliest entry in the
queue wins, which for competing producers of the same output is the
function registered earlier. -/
def selectBest : List Cand → Option Cand
  | [] => none
  | c :: cs => some (cs.foldl (fun b x => if x.cost < b.cost then x else b) c)

/-- The argument values for a function's required inputs (all settled when
this is used). -/
def argsFor (st : RState) (ins : List String) : List Value :=
  ins.filterMap (fun x => (entryOf st x).map (·.value))

/-- Settle the popped candidate: invoke the callable lazily (only if this
function has not been invoked yet), cache its outputs atomically, and
settle the popped output id positionally; a callable that raises (returns
`none`, or returns too few values for the popped position) marks the
function permanently discarded and settles nothing. -/
def applyCand (g : Graph) (st : RState) (c : Cand) : RState :=
  match g.funcs.get? c.cf with
  | none => { st with failed := st.failed ++ [c.cf] }
  | some f =>
    match st.invocations.find? (·.idx == c.cf) with
    | some inv =>
      match inv.outs.get? (f.outputs.findIdx (· == c.cid)) with
      | some v =>
        { st with settled := st.settled ++ [⟨c.cid, v, c.cost, some c.cf⟩] }
      | none => { st with failed := st.failed ++ [c.cf] }
    | none =>
      match f.call (argsFor st f.inputs) with
      | none => { st with failed := st.failed ++ [c.cf] }
      | some outs =>
        match outs.get? (f.outputs.findIdx (· == c.cid)) with
        | some v =>
          { st with
            settled := st.settled ++ [⟨c.cid, v, c.cost, some c.cf⟩],
            invocations := st.invocations ++ [⟨c.cf, argsFor st f.inputs, outs⟩] }
        | none => { st with failed := st.failed ++ [c.cf] }

/-- One iteration of the resolution loop: pop the lowest-cost pending
entry and settle it (or absorb its failure).  A fixpoint when the queue is
empty. -/
def runStep (g : Graph) (inputs : List (String × Value)) (st : RState) :
    RState :=
  match selectBest (candidates g inputs st) with
  | none => st
  | some c => applyCand g st c

/-- Spec section 4.2 step 6: the loop stops when every requested output is
settled (an empty request runs to queue exhaustion) or the queue is empty. -/
def isDone (g : Graph) (inputs : List (String × Value)) (req : List String)
    (st : RState) : Bool :=
  (!req.isEmpty && req.all (settledQ st)) ||
    (candidates g inputs st).isEmpty

/-- Run the loop for at most `n` iterations (each iteration settles a new
id or discards a new function, so enough fuel reaches the fixpoint). -/
def loopN (g : Graph) (inputs : List (String × Value)) (req : List String) :
    Nat → RState → RState
  | 0, st => st
  | n + 1, st =>
    if isDone g inputs req st then st
    else loopN g inputs req n (runStep g inputs st)

/-- The settlements seeded from the supplied inputs, at cost 0. -/
def initInputs (inputs : List (String × Value)) : List Settlement :=
  inputs.map (fun kv => ⟨kv.1, kv.2, 0, none⟩)

/-- The settlements seeded from data-node defaults not overridden by an
input, at cost 0. -/
def initDefaults (g : Graph) (inputs : List (String × Value)) :
    List Settlement :=
  g.datas.filterMap (fun dn =>
    match dn.default with
    | some v =>
      if (inputs.lookup dn.did).isNone then some ⟨dn.did, v, 0, none⟩
      else none
    | none => none)

/-- The per-run initial state: every supplied input is settled at cost 0,
and every data node with a default value not overridden by an input is
settled at cost 0 (both reachable from START). -/
def initState (g : Graph) (inputs : List (String × Value)) : RState :=
  ⟨initInputs inputs ++ initDefaults g inputs, [], []⟩

/-- Fuel that always suffices to reach the loop fixpoint. -/
def fuelOf (g : Graph) : Nat :=
  (outIds g).length + g.funcs.length + 1

/-- The complete resolution run of `dispatch(inputs, requested_outputs)`
over graph `g`. -/
def dispatchRun (g : Graph) (inputs : List (String × Value))
    (req : List String) : RState :=
  loopN g inputs req (fuelOf g) (initState g inputs)

/-- The workflow of a finished run. -/
def finalWorkflow (st : RState) : Workflow :=
  ⟨st.settled, st.invocations, st.failed⟩

/-- The data-output mapping of a finished run: every settled data id with
its value. -/
def solutionOf (st : RState) : List (String × Value) :=
  st.settled.map (fun s => (s.sid, s.value))

/-- `dispatch` as the callers see it, per the draw.py evidence
(`w, o = dsp.dispatch()`): the workflow first, the data outputs second. -/
def dispatch (g : Graph) (inputs : List (String × Value))
    (req : List String) : Workflow × List (String × Value) :=
  (finalWorkflow (dispatchRun g inputs req), solutionOf (dispatchRun g inputs req))

/-- A Python object as handed across `dispatch`'s dynamically typed
return tuple: either a plain mapping (dict) or a workflow graph. -/
inductive PyObj where
  | dict (m : List (String × Value))
  | graph (w : Workflow)
deriving DecidableEq

/-- The return tuple of `dispatch` with each component as a dynamically
typed object, for stating claims about the order of the pair. -/
def dispatchPy (g : Graph) (inputs : List (String × Value))
    (req : List String) : PyObj × PyObj :=
  (PyObj.graph (dispatch g inputs req).1, PyObj.dict (dispatch g inputs req).2)

/-- The dispatcher object: the immutable capability graph plus the
`workflow` attribute that draw.py reads back after a run
(`dsp.workflow`). -/
structure Dispatcher where
  dmap : Graph
  workflow : Workflow

/-- `dsp.dispatch(...)` as a method: runs the resolution, stores the run's
workflow on the dispatcher object, and returns it together with the data
outputs. -/
def Dispatcher.runDispatch (d : Dispatcher) (inputs : List (String × Value))
    (req : List String) : Dispatcher × Workflow × List (String × Value) :=
  ({ d with workflow := (dispatch d.dmap inputs req).1 },
    (dispatch d.dmap inputs req).1, (dispatch d.dmap inputs req).2)

/-- `add_function` registration: a duplicate explicit function id fails
with DuplicateNodeId; no structural (cycle) check is performed. -/
def add_function (g : Graph) (f : FuncNode) : Except String Graph :=
  if g.funcs.any (·.fid == f.fid) then .error "DuplicateNodeId"
  else .ok { g with funcs := g.funcs ++ [f] }

/-- `add_data` registration: a duplicate data id fails with
DuplicateNodeId. -/
def add_data (g : Graph) (dn : DataNode) : Except String Graph :=
  if g.datas.any (·.did == dn.did) then .error "DuplicateNodeId"
  else .ok { g with datas := g.datas ++ [dn] }

/-- Settleability: the least set of data ids resolvable in a run, per the
spec's completeness property - supplied inputs, defaults, and the outputs
of any in-domain producer whose callable cannot raise and whose required
inputs are all settleable. -/
inductive Settleable (g : Graph) (inputs : List (String × Value)) :
    String → Prop where
  | input : ∀ d v, inputs.lookup d = some v → Settleable g inputs d
  | dflt : ∀ dn, dn ∈ g.datas → dn.default.isSome →
      Settleable g inputs dn.did
  | fn : ∀ d i f, g.funcs.get? i = some f → d ∈ f.outputs →
      domainOK f inputs = true →
      (∀ args, ∃ outs, f.call args = some outs ∧
        f.outputs.length ≤ outs.length) →
      (∀ x ∈ f.inputs, Settleable g inputs x) →
      Settleable g inputs d

/-! ## Proof infrastructure -/

/-- One run state extends another: resolution state is append-only
(settlements and invocations are never revised, discards are permanent). -/
def Extends (st st' : RState) : Prop :=
  (∃ e1, st'.settled = st.settled ++ e1) ∧
  (∀ i ∈ st.failed, i ∈ st'.failed) ∧
  (∃ e2, st'.invocations = st.invocations ++ e2)

/-- The possible outcomes of settling one popped candidate, with the
evidence of the branch taken by `applyCand`. -/
inductive StepResult (g : Graph) (st : RState) (c : Cand) : RState → Prop where
  | settleCached : ∀ f inv v, g.funcs.get? c.cf = some f →
      st.invocations.find? (·.idx == c.cf) = some inv →
      inv.outs.get? (f.outputs.findIdx (· == c.cid)) = some v →
      StepResult g st c
        { st with settled := st.settled ++ [⟨c.cid, v, c.cost, some c.cf⟩] }
  | settleFresh : ∀ f outs v, g.funcs.get? c.cf = some f →
      st.invocations.find? (·.idx == c.cf) = none →
      f.call (argsFor st f.inputs) = some outs →
      outs.get? (f.outputs.findIdx (· == c.cid)) = some v →
      StepResult g st c
        { st with
          settled := st.settled ++ [⟨c.cid, v, c.cost, some c.cf⟩],
          invocations := st.invocations ++ [⟨c.cf, argsFor st f.inputs, outs⟩] }
  | failNoFun : g.funcs.get? c.cf = none →
      StepResult g st c { st with failed := st.failed ++ [c.cf] }
  | failCachedArity : ∀ f inv, g.funcs.get? c.cf = some f →
      st.invocations.find? (·.idx == c.cf) = some inv →
      inv.outs.get? (f.outputs.findIdx (· == c.cid)) = none →
      StepResult g st c { st with failed := st.failed ++ [c.cf] }
  | failCall : ∀ f, g.funcs.get? c.cf = some f →
      st.invocations.find? (·.idx == c.cf) = none →
      f.call (argsFor st f.inputs) = none →
      StepResult g st c { st with failed := st.failed ++ [c.cf] }
  | failFreshArity : ∀ f outs, g.funcs.get? c.cf = some f →
      st.invocations.find? (·.idx == c.cf) = none →
      f.call (argsFor st f.inputs) = some outs →
      outs.get? (f.outputs.findIdx (· == c.cid)) = none →
      StepResult g st c { st with failed := st.failed ++ [c.cf] }

/-- The invariant maintained by every resolution run: unique settlements
with non-negative costs dominating no pending candidate, full provenance
of every settlement and invocation, and failure evidence for every
discarded function. -/
structure Inv (g : Graph) (inputs : List (String × Value)) (st : RState) :
    Prop where
  nodupS : (st.settled.map (·.sid)).Nodup
  nonneg : ∀ s ∈ st.settled, 0 ≤ s.cost
  candLB : ∀ c ∈ candidates g inputs st, ∀ s ∈ st.settled, s.cost ≤ c.cost
  prov : ∀ s ∈ st.settled, ∀ i, s.producer = some i →
    ∃ f, g.funcs.get? i = some f ∧ s.sid ∈ f.outputs ∧
      domainOK f inputs = true ∧
      (∃ m, readyCost st f.inputs = some m ∧ s.cost = f.weight + m) ∧
      ∃ inv ∈ st.invocations, inv.idx = i ∧
        inv.outs.get? (f.outputs.findIdx (· == s.sid)) = some s.value
  provNone : ∀ s ∈ st.settled, s.producer = none →
    (inputs.lookup s.sid = some s.value ∨
      ∃ dn ∈ g.datas, dn.did = s.sid ∧ dn.default = some s.value) ∧
      s.cost = 0
  inputsSettled : ∀ k ∈ inputs.map Prod.fst, settledQ st k = true
  defaultsSettled : ∀ dn ∈ g.datas, dn.default.isSome →
    settledQ st dn.did = true
  invNodup : (st.invocations.map (·.idx)).Nodup
  invProd : ∀ inv ∈ st.invocations, ∃ s ∈ st.settled,
    s.producer = some inv.idx
  invCall : ∀ inv ∈ st.invocations, ∃ f, g.funcs.get? inv.idx = some f ∧
    f.call inv.args = some inv.outs
  failedSpec : ∀ i ∈ st.failed, ∃ f, g.funcs.get? i = some f ∧
    domainOK f inputs = true ∧
    ∃ args, f.call args = none ∨
      ∃ outs pos, f.call args = some outs ∧ pos < f.outputs.length ∧
        outs.length ≤ pos

/-- Termination measure: unsettled producible ids plus undiscarded
functions. -/
def measureOf (g : Graph) (st : RState) : Nat :=
  ((outIds g).filter (fun d => ¬ settledQ st d)).length +
    ((List.range g.funcs.length).filter (fun i => i ∉ st.failed)).length

/-! ## Concrete example graphs used by the witnesses and counterexamples -/

/-- Two producers of `o` with weights 1 and 5 (the spec's weight
monotonicity scenario). -/
def exGraphTie : Graph :=
  ⟨[], [⟨"f1", ["a"], ["o"], 1, none, fun _ => some [Value.vint 10]⟩,
        ⟨"f2", ["a"], ["o"], 5, none, fun _ => some [Value.vint 20]⟩]⟩

/-- The same two producers plus a third, cheaper producer of `o`. -/
def exGraphThird : Graph :=
  ⟨[], [⟨"f1", ["a"], ["o"], 1, none, fun _ => some [Value.vint 10]⟩,
        ⟨"f2", ["a"], ["o"], 5, none, fun _ => some [Value.vint 20]⟩,
        ⟨"f3", ["a"], ["o"], 0, none, fun _ => some [Value.vint 99]⟩]⟩

/-- A cheap producer of `o` whose callable raises, plus a sound backup
producer. -/
def exGraphFail : Graph :=
  ⟨[], [⟨"bad", ["a"], ["o"], 0, none, fun _ => none⟩,
        ⟨"ok", ["a"], ["o"], 1, none, fun _ => some [Value.vint 7]⟩]⟩

/-- The spec's domain-gating example: the sole producer of `out` is only
in domain when `mode = 'A'`. -/
def exGraphDom : Graph :=
  ⟨[], [⟨"g", ["a"], ["out"], 0,
        some (fun ins => ins.lookup "mode" == some (Value.vstr "A")),
        fun _ => some [Value.vint 1]⟩]⟩

/-- The spec's default-value example: data `x` has default 100 and no
producer. -/
def exGraphDflt : Graph :=
  ⟨[⟨"x", some (Value.vint 100)⟩], []⟩

/-- A two-node cycle: `fab : a → b` and `fba : b → a`. -/
def fabNode : FuncNode :=
  ⟨"fab", ["a"], ["b"], 0, none, fun _ => some [Value.vint 1]⟩

/-- The second half of the cycle. -/
def fbaNode : FuncNode :=
  ⟨"fba", ["b"], ["a"], 0, none, fun _ => some [Value.vint 2]⟩

/-- A two-step chain `a → b → c` for the completeness witness. -/
def exGraphChain : Graph :=
  ⟨[], [⟨"f1", ["a"], ["b"], 0, none, fun _ => some [Value.vint 1]⟩,
        ⟨"f2", ["b"], ["c"], 0, none, fun _ => some [Value.vint 2]⟩]⟩

/-- Two equal-weight producers of `o` for the registration-order
tie-break. -/
def exGraphOrder : Graph :=
  ⟨[], [⟨"f1", ["a"], ["o"], 2, none, fun _ => some [Value.vint 10]⟩,
        ⟨"f2", ["a"], ["o"], 2, none, fun _ => some [Value.vint 20]⟩]⟩

/-- A dispatcher object over `exGraphTie` with an empty stored workflow. -/
def exDispatcher : Dispatcher :=
  ⟨exGraphTie, ⟨[], [], []⟩⟩

/-! ## Persistence lemmas -/

theorem extends_rfl (st : RState) : Extends st st :=
  ⟨⟨[], by simp⟩, fun _ h => h, ⟨[], by simp⟩⟩

theorem extends_trans {s1 s2 s3 : RState} (h12 : Extends s1 s2)
    (h23 : Extends s2 s3) : Extends s1 s3 := by
  obtain ⟨⟨e1, he1⟩, hf1, ⟨i1, hi1⟩⟩ := h12
  obtain ⟨⟨e2, he2⟩, hf2, ⟨i2, hi2⟩⟩ := h23
  exact ⟨⟨e1 ++ e2, by rw [he2, he1, List.append_assoc]⟩,
    fun i h => hf2 i (hf1 i h),
    ⟨i1 ++ i2, by rw [hi2, hi1, List.append_assoc]⟩⟩

theorem entryOf_mono {st st' : RState} (h : Extends st st') {d : String}
    {e : Settlement} (he : entryOf st d = some e) : entryOf st' d = some e := by
  obtain ⟨⟨e1, he1⟩, _, _⟩ := h
  unfold entryOf at *
  rw [he1, List.find?_append, he]
  rfl

theorem settledQ_mono {st st' : RState} (h : Extends st st') {d : String}
    (hd : settledQ st d = true) : settledQ st' d = true := by
  unfold settledQ at *
  obtain ⟨e, he⟩ := Option.isSome_iff_exists.mp hd
  rw [entryOf_mono h he]
  rfl

theorem failed_mono {st st' : RState} (h : Extends st st') {i : Nat}
    (hi : i ∈ st.failed) : i ∈ st'.failed := h.2.1 i hi

theorem settled_mem_mono {st st' : RState} (h : Extends st st')
    {s : Settlement} (hs : s ∈ st.settled) : s ∈ st'.settled := by
  obtain ⟨⟨e1, he1⟩, _, _⟩ := h
  rw [he1]
  exact List.mem_append_left _ hs

theorem invocations_mem_mono {st st' : RState} (h : Extends st st')
    {inv : Invocation} (hs : inv ∈ st.invocations) : inv ∈ st'.invocations := by
  obtain ⟨_, _, ⟨e2, he2⟩⟩ := h
  rw [he2]
  exact List.mem_append_left _ hs

/-! ## readyCost lemmas -/

theorem readyCost_nil (st : RState) : readyCost st [] = some 0 := rfl

theorem readyCost_cons (st : RState) (x : String) (xs : List String) :
    readyCost st (x :: xs) =
      match costOf st x, readyCost st xs with
      | some c, some m => some (max c m)
      | _, _ => none := rfl

theorem readyCost_cons_some {st : RState} {x : String} {xs : List String}
    {m : ℤ} (hm : readyCost st (x :: xs) = some m) :
    ∃ c m', costOf st x = some c ∧ readyCost st xs = some m' ∧
      m = max c m' := by
  rw [readyCost_cons] at hm
  rcases hc : costOf st x with _ | c <;> rw [hc] at hm
  · cases hm
  · rcases hr : readyCost st xs with _ | m' <;> rw [hr] at hm
    · cases hm
    · exact ⟨c, m', rfl, rfl, (Option.some.injEq _ _ ▸ hm).symm⟩

theorem readyCost_mono {st st' : RState} (h : Extends st st')
    {ins : List String} {m : ℤ} (hm : readyCost st ins = some m) :
    readyCost st' ins = some m := by
  induction ins generalizing m with
  | nil => simpa [readyCost_nil] using hm
  | cons x xs ih =>
    obtain ⟨c, m', hc, hr, hmax⟩ := readyCost_cons_some hm
    have hc' : costOf st' x = some c := by
      unfold costOf at hc ⊢
      rcases he : entryOf st x with _ | e <;> rw [he] at hc
      · cases hc
      · rw [entryOf_mono h he]; exact hc
    rw [readyCost_cons, hc', ih hr, hmax]

theorem readyCost_nonneg {st : RState} {ins : List String} {m : ℤ}
    (hm : readyCost st ins = some m) : 0 ≤ m := by
  induction ins generalizing m with
  | nil =>
    rw [readyCost_nil] at hm
    cases hm
    omega
  | cons x xs ih =>
    obtain ⟨c, m', _, hr, hmax⟩ := readyCost_cons_some hm
    subst hmax
    exact le_trans (ih hr) (le_max_right _ _)

theorem readyCost_mem {st : RState} {ins : List String} {m : ℤ}
    (hm : readyCost st ins = some m) {x : String} (hx : x ∈ ins) :
    ∃ e, entryOf st x = some e ∧ e.cost ≤ m := by
  induction ins generalizing m with
  | nil => cases hx
  | cons y ys ih =>
    obtain ⟨c, m', hc, hr, hmax⟩ := readyCost_cons_some hm
    subst hmax
    rcases List.mem_cons.mp hx with h | h
    · subst h
      unfold costOf at hc
      rcases he : entryOf st x with _ | e <;> rw [he] at hc
      · cases hc
      · cases hc
        exact ⟨e, rfl, le_max_left _ _⟩
    · obtain ⟨e, he, hle⟩ := ih hr h
      exact ⟨e, he, le_trans hle (le_max_right _ _)⟩

theorem readyCost_isSome {st : RState} {ins : List String}
    (h : ∀ x ∈ ins, settledQ st x = true) : ∃ m, readyCost st ins = some m := by
  induction ins with
  | nil => exact ⟨0, rfl⟩
  | cons y ys ih =>
    obtain ⟨m', hm'⟩ := ih (fun x hx => h x (List.mem_cons_of_mem _ hx))
    have hy := h y (List.mem_cons_self _ _)
    unfold settledQ at hy
    obtain ⟨e, he⟩ := Option.isSome_iff_exists.mp hy
    refine ⟨max e.cost m', ?_⟩
    rw [readyCost_cons, show costOf st y = some e.cost by
      unfold costOf; rw [he]; rfl, hm']

theorem readyCost_none {st : RState} {ins : List String}
    (h : readyCost st ins = none) : ∃ x ∈ ins, entryOf st x = none := by
  by_contra hc
  push_neg at hc
  have : ∀ x ∈ ins, settledQ st x = true := by
    intro x hx
    unfold settledQ
    rcases he : entryOf st x with _ | e
    · exact absurd he (hc x hx)
    · rfl
  obtain ⟨m, hm⟩ := readyCost_isSome this
  rw [h] at hm
  cases hm

/-! ## Candidate queue lemmas -/

theorem mem_enumFrom_iff {α : Type} {l : List α} {j i : Nat} {a : α} :
    (i, a) ∈ List.enumFrom j l ↔ j ≤ i ∧ l.get? (i - j) = some a := by
  induction l generalizing j with
  | nil => simp
  | cons x xs ih =>
    simp only [List.enumFrom, List.mem_cons, ih]
    constructor
    · rintro (h | ⟨h1, h2⟩)
      · injection h with h1 h2
        subst h1
        subst h2
        simp
      · refine ⟨by omega, ?_⟩
        rw [show i - j = (i - (j + 1)) + 1 by omega]
        simpa using h2
    · rintro ⟨h1, h2⟩
      rcases Nat.eq_or_lt_of_le h1 with h | h
      · subst h
        simp only [Nat.sub_self, List.get?_cons_zero] at h2
        cases h2
        exact Or.inl rfl
      · refine Or.inr ⟨by omega, ?_⟩
        rw [show i - j = (i - (j + 1)) + 1 by omega] at h2
        simpa using h2

theorem mem_enum_iff {α : Type} {l : List α} {i : Nat} {a : α} :
    (i, a) ∈ l.enum ↔ l.get? i = some a := by
  rw [List.enum, mem_enumFrom_iff]
  simp

theorem mem_candsFor {g : Graph} {inputs : List (String × Value)}
    {st : RState} {d : String} {c : Cand} :
    c ∈ candsFor g inputs st d ↔
      ∃ f, g.funcs.get? c.cf = some f ∧ c.cid = d ∧ d ∈ f.outputs ∧
        c.cf ∉ st.failed ∧ domainOK f inputs = true ∧
        ∃ m, readyCost st f.inputs = some m ∧ c.cost = f.weight + m := by
  unfold candsFor
  rw [List.mem_filterMap]
  constructor
  · rintro ⟨⟨i, f⟩, hmem, hf⟩
    dsimp only at hf
    split at hf
    · rcases hr : readyCost st f.inputs with _ | m <;> rw [hr] at hf
      · cases hf
      · cases hf
        rename_i hcond
        exact ⟨f, mem_enum_iff.mp hmem, rfl, hcond.1, hcond.2.1, hcond.2.2,
          m, hr, rfl⟩
    · cases hf
  · rintro ⟨f, hget, hcid, hout, hnf, hdom, m, hr, hcost⟩
    obtain ⟨cost, cid, cf⟩ := c
    dsimp only at hget hcid hcost hnf ⊢
    subst hcid
    subst hcost
    refine ⟨(cf, f), mem_enum_iff.mpr hget, ?_⟩
    dsimp only
    rw [if_pos ⟨hout, hnf, hdom⟩, hr]

theorem mem_candidates {g : Graph} {inputs : List (String × Value)}
    {st : RState} {c : Cand} :
    c ∈ candidates g inputs st ↔
      c.cid ∈ outIds g ∧ settledQ st c.cid = false ∧
      ∃ f, g.funcs.get? c.cf = some f ∧ c.cid ∈ f.outputs ∧
        c.cf ∉ st.failed ∧ domainOK f inputs = true ∧
        ∃ m, readyCost st f.inputs = some m ∧ c.cost = f.weight + m := by
  unfold candidates
  rw [List.mem_flatMap]
  constructor
  · rintro ⟨d, hd, hc⟩
    obtain ⟨hd1, hd2⟩ := List.mem_filter.mp hd
    obtain ⟨f, hget, hcid, hout, rest⟩ := mem_candsFor.mp hc
    subst hcid
    refine ⟨hd1, ?_, f, hget, hout, rest⟩
    simpa using hd2
  · rintro ⟨hout, hset, f, hget, hcid, rest⟩
    refine ⟨c.cid, List.mem_filter.mpr ⟨hout, by simpa using hset⟩, ?_⟩
    exact mem_candsFor.mpr ⟨f, hget, rfl, hcid, rest⟩

theorem candsFor_cid {g : Graph} {inputs : List (String × Value)}
    {st : RState} {d : String} {c : Cand} (h : c ∈ candsFor g inputs st d) :
    c.cid = d := by
  obtain ⟨f, _, hcid, _⟩ := mem_candsFor.mp h
  exact hcid

theorem pairwise_filterMap_aux {α β : Type} {R : α → α → Prop}
    {S : β → β → Prop} (f : α → Option β)
    (H : ∀ a b, R a b → ∀ x, f a = some x → ∀ y, f b = some y → S x y)
    {l : List α} (h : l.Pairwise R) : (l.filterMap f).Pairwise S := by
  induction l with
  | nil => simp
  | cons a l ih =>
    obtain ⟨hr, hl⟩ := List.pairwise_cons.mp h
    rcases hf : f a with _ | x
    · rw [List.filterMap_cons_none hf]
      exact ih hl
    · rw [List.filterMap_cons_some hf]
      refine List.Pairwise.cons ?_ (ih hl)
      intro y hy
      obtain ⟨b, hb, hfb⟩ := List.mem_filterMap.mp hy
      exact H a b (hr b hb) x hf y hfb

theorem enumFrom_pairwise {α : Type} (l : List α) (j : Nat) :
    (List.enumFrom j l).Pairwise (fun a b => a.1 < b.1) := by
  induction l generalizing j with
  | nil => simp
  | cons x xs ih =>
    simp only [List.enumFrom]
    refine List.Pairwise.cons ?_ (ih (j + 1))
    intro p hp
    have := (@mem_enumFrom_iff _ xs (j + 1) p.1 p.2).mp
      (by simpa using hp)
    omega

theorem candsFor_pairwise (g : Graph) (inputs : List (String × Value))
    (st : RState) (d : String) :
    (candsFor g inputs st d).Pairwise (fun a b => a.cf < b.cf) := by
  unfold candsFor
  refine pairwise_filterMap_aux _ ?_
    (by simpa [List.enum] using enumFrom_pairwise g.funcs 0)
  rintro ⟨i, f⟩ ⟨i', f'⟩ hR x hx y hy
  dsimp only at hx hy ⊢
  have hxi : x.cf = i := by
    split at hx
    · rcases hr : readyCost st f.inputs with _ | m <;> rw [hr] at hx
      · cases hx
      · cases hx; rfl
    · cases hx
  have hyi : y.cf = i' := by
    split at hy
    · rcases hr : readyCost st f'.inputs with _ | m <;> rw [hr] at hy
      · cases hy
      · cases hy; rfl
    · cases hy
  rw [hxi, hyi]
  exact hR

theorem candidates_pairwise (g : Graph) (inputs : List (String × Value))
    (st : RState) :
    (candidates g inputs st).Pairwise
      (fun a b => a.cid = b.cid → a.cf < b.cf) := by
  unfold candidates
  have hnd : (((outIds g)).filter (fun d => ¬ settledQ st d)).Nodup :=
    (List.nodup_dedup _).filter _
  revert hnd
  generalize ((outIds g).filter (fun d => ¬ settledQ st d)) = ds
  intro hnd
  induction ds with
  | nil => simp
  | cons d ds ih =>
    rw [List.flatMap_cons]
    rw [List.pairwise_append]
    refine ⟨?_, ih (List.Nodup.of_cons hnd), ?_⟩
    · exact List.Pairwise.imp
        (fun {a b} (hab : a.cf < b.cf) (_ : a.cid = b.cid) => hab)
        (candsFor_pairwise g inputs st d)
    · intro x hx y hy _
      have hxd : x.cid = d := candsFor_cid hx
      obtain ⟨d', hd', hy'⟩ := List.mem_flatMap.mp hy
      have hyd : y.cid = d' := candsFor_cid hy'
      rename_i hcid
      exfalso
      have : d ≠ d' := by
        intro h
        subst h
        exact (List.nodup_cons.mp hnd).1 hd'
      exact this (hxd ▸ hyd ▸ hcid)

/-! ## selectBest lemmas -/

theorem selectBest_none_iff {l : List Cand} : selectBest l = none ↔ l = [] := by
  cases l <;> simp [selectBest]

theorem foldl_min_mem (cs : List Cand) (c : Cand) :
    cs.foldl (fun b x => if x.cost < b.cost then x else b) c = c ∨
      cs.foldl (fun b x => if x.cost < b.cost then x else b) c ∈ cs := by
  induction cs generalizing c with
  | nil => exact Or.inl rfl
  | cons x xs ih =>
    simp only [List.foldl_cons]
    rcases ih (if x.cost < c.cost then x else c) with h | h
    · rw [h]
      split
      · exact Or.inr (List.mem_cons_self _ _)
      · exact Or.inl rfl
    · exact Or.inr (List.mem_cons_of_mem _ h)

theorem foldl_min_le (cs : List Cand) (c : Cand) :
    (cs.foldl (fun b x => if x.cost < b.cost then x else b) c).cost ≤ c.cost ∧
      ∀ x ∈ cs,
        (cs.foldl (fun b x => if x.cost < b.cost then x else b) c).cost ≤
          x.cost := by
  induction cs generalizing c with
  | nil => exact ⟨le_refl _, by simp⟩
  | cons x xs ih =>
    simp only [List.foldl_cons]
    obtain ⟨ih1, ih2⟩ := ih (if x.cost < c.cost then x else c)
    constructor
    · refine le_trans ih1 ?_
      split <;> omega
    · intro y hy
      rcases List.mem_cons.mp hy with h | h
      · subst h
        refine le_trans ih1 ?_
        split <;> omega
      · exact ih2 y h

theorem foldl_min_split (cs : List Cand) (c : Cand) :
    ∃ l1 l2, c :: cs =
        l1 ++ (cs.foldl (fun b x => if x.cost < b.cost then x else b) c) :: l2 ∧
      ∀ x ∈ l1,
        (cs.foldl (fun b x => if x.cost < b.cost then x else b) c).cost <
          x.cost := by
  induction cs generalizing c with
  | nil => exact ⟨[], [], rfl, by simp⟩
  | cons x xs ih =>
    simp only [List.foldl_cons]
    by_cases hx : x.cost < c.cost
    · rw [if_pos hx]
      obtain ⟨l1, l2, hsplit, hgt⟩ := ih x
      rcases l1 with _ | ⟨y, l1'⟩
      · simp only [List.nil_append] at hsplit
        refine ⟨[c], l2, ?_, ?_⟩
        · simp only [List.cons_append, List.nil_append]
          rw [← hsplit]
        · intro z hz
          simp only [List.mem_singleton] at hz
          subst hz
          exact lt_of_le_of_lt (foldl_min_le xs x).1 hx
      · simp only [List.cons_append, List.cons.injEq] at hsplit
        obtain ⟨hy, hxs⟩ := hsplit
        subst hy
        refine ⟨c :: x :: l1', l2, ?_, ?_⟩
        · simp only [List.cons_append]
          exact congrArg (fun t => c :: x :: t) hxs
        · intro z hz
          rcases List.mem_cons.mp hz with h | h
          · subst h
            exact lt_trans (hgt x (List.mem_cons_self _ _)) hx
          · exact hgt z h
    · rw [if_neg hx]
      obtain ⟨l1, l2, hsplit, hgt⟩ := ih c
      rcases l1 with _ | ⟨y, l1'⟩
      · simp only [List.nil_append] at hsplit
        injection hsplit with h1 h2
        refine ⟨[], x :: xs, ?_, by simp⟩
        simp only [List.nil_append]
        rw [← h1]
      · simp only [List.cons_append, List.cons.injEq] at hsplit
        obtain ⟨hy, hxs⟩ := hsplit
        subst hy
        refine ⟨c :: x :: l1', l2, ?_, ?_⟩
        · simp only [List.cons_append]
          exact congrArg (fun t => c :: x :: t) hxs
        · intro z hz
          rcases List.mem_cons.mp hz with h | h
          · rw [h]
            exact hgt c (List.mem_cons_self _ _)
          · rcases List.mem_cons.mp h with h2 | h2
            · have h3 : (List.foldl (fun b x => if x.cost < b.cost then x else b)
                  c xs).cost < c.cost := hgt c (List.mem_cons_self _ _)
              have h4 : ¬ x.cost < c.cost := hx
              rw [h2]
              omega
            · exact hgt z (List.mem_cons_of_mem _ h2)

theorem selectBest_mem {l : List Cand} {c : Cand}
    (h : selectBest l = some c) : c ∈ l := by
  rcases l with _ | ⟨x, xs⟩
  · cases h
  · simp only [selectBest, Option.some.injEq] at h
    rcases foldl_min_mem xs x with h' | h' <;> rw [h] at h'
    · exact h' ▸ List.mem_cons_self _ _
    · exact List.mem_cons_of_mem _ h'

theorem selectBest_min {l : List Cand} {c : Cand}
    (h : selectBest l = some c) : ∀ x ∈ l, c.cost ≤ x.cost := by
  rcases l with _ | ⟨y, ys⟩
  · cases h
  · simp only [selectBest, Option.some.injEq] at h
    intro x hx
    obtain ⟨h1, h2⟩ := foldl_min_le ys y
    rcases List.mem_cons.mp hx with h' | h'
    · exact h ▸ h' ▸ h1
    · exact h ▸ h2 x h'

theorem selectBest_split {l : List Cand} {c : Cand}
    (h : selectBest l = some c) :
    ∃ l1 l2, l = l1 ++ c :: l2 ∧ ∀ x ∈ l1, c.cost < x.cost := by
  rcases l with _ | ⟨y, ys⟩
  · cases h
  · simp only [selectBest, Option.some.injEq] at h
    obtain ⟨l1, l2, hsplit, hgt⟩ := foldl_min_split ys y
    exact ⟨l1, l2, h ▸ hsplit, h ▸ hgt⟩

/-! ## Step characterization -/

theorem applyCand_stepResult (g : Graph) (st : RState) (c : Cand) :
    StepResult g st c (applyCand g st c) := by
  unfold applyCand
  split
  next h => exact StepResult.failNoFun h
  next f h =>
    split
    next inv hi =>
      split
      next v ho => exact StepResult.settleCached f inv v h hi ho
      next ho => exact StepResult.failCachedArity f inv h hi ho
    next hi =>
      split
      next hc => exact StepResult.failCall f h hi hc
      next outs hc =>
        split
        next v ho => exact StepResult.settleFresh f outs v h hi hc ho
        next ho => exact StepResult.failFreshArity f outs h hi hc ho

theorem stepResult_extends {g : Graph} {st st' : RState} {c : Cand}
    (h : StepResult g st c st') : Extends st st' := by
  cases h with
  | settleCached f inv v h1 h2 h3 =>
    exact ⟨⟨_, rfl⟩, fun i hi => hi, ⟨[], (List.append_nil _).symm⟩⟩
  | settleFresh f outs v h1 h2 h3 h4 =>
    exact ⟨⟨_, rfl⟩, fun i hi => hi, ⟨_, rfl⟩⟩
  | failNoFun h1 =>
    exact ⟨⟨[], (List.append_nil _).symm⟩, fun i hi => List.mem_append_left _ hi,
      ⟨[], (List.append_nil _).symm⟩⟩
  | failCachedArity f inv h1 h2 h3 =>
    exact ⟨⟨[], (List.append_nil _).symm⟩, fun i hi => List.mem_append_left _ hi,
      ⟨[], (List.append_nil _).symm⟩⟩
  | failCall f h1 h2 h3 =>
    exact ⟨⟨[], (List.append_nil _).symm⟩, fun i hi => List.mem_append_left _ hi,
      ⟨[], (List.append_nil _).symm⟩⟩
  | failFreshArity f outs h1 h2 h3 h4 =>
    exact ⟨⟨[], (List.append_nil _).symm⟩, fun i hi => List.mem_append_left _ hi,
      ⟨[], (List.append_nil _).symm⟩⟩

theorem stepResult_cases {g : Graph} {st st' : RState} {c : Cand}
    (h : StepResult g st c st') :
    (st'.settled = st.settled ∧ st'.invocations = st.invocations ∧
      st'.failed = st.failed ++ [c.cf]) ∨
    ∃ v, st'.settled = st.settled ++ [⟨c.cid, v, c.cost, some c.cf⟩] ∧
      st'.failed = st.failed := by
  cases h with
  | settleCached f inv v h1 h2 h3 => exact Or.inr ⟨v, rfl, rfl⟩
  | settleFresh f outs v h1 h2 h3 h4 => exact Or.inr ⟨v, rfl, rfl⟩
  | failNoFun h1 => exact Or.inl ⟨rfl, rfl, rfl⟩
  | failCachedArity f inv h1 h2 h3 => exact Or.inl ⟨rfl, rfl, rfl⟩
  | failCall f h1 h2 h3 => exact Or.inl ⟨rfl, rfl, rfl⟩
  | failFreshArity f outs h1 h2 h3 h4 => exact Or.inl ⟨rfl, rfl, rfl⟩

theorem runStep_eq_of_none {g : Graph} {inputs : List (String × Value)}
    {st : RState} (h : selectBest (candidates g inputs st) = none) :
    runStep g inputs st = st := by
  unfold runStep
  rw [h]

theorem runStep_eq_of_some {g : Graph} {inputs : List (String × Value)}
    {st : RState} {c : Cand} (h : selectBest (candidates g inputs st) = some c) :
    runStep g inputs st = applyCand g st c := by
  unfold runStep
  rw [h]

theorem runStep_extends (g : Graph) (inputs : List (String × Value))
    (st : RState) : Extends st (runStep g inputs st) := by
  rcases h : selectBest (candidates g inputs st) with _ | c
  · rw [runStep_eq_of_none h]
    exact extends_rfl st
  · rw [runStep_eq_of_some h]
    exact stepResult_extends (applyCand_stepResult g st c)

theorem loopN_extends (g : Graph) (inputs : List (String × Value))
    (req : List String) (n : Nat) (st : RState) :
    Extends st (loopN g inputs req n st) := by
  induction n generalizing st with
  | zero => exact extends_rfl st
  | succ n ih =>
    unfold loopN
    by_cases h : isDone g inputs req st
    · rw [if_pos h]
      exact extends_rfl st
    · rw [if_neg h]
      exact extends_trans (runStep_extends g inputs st) (ih (runStep g inputs st))

/-! ## entryOf over appended settlements -/

theorem entryOf_sid {st : RState} {d : String} {e : Settlement}
    (h : entryOf st d = some e) : e.sid = d := by
  have := List.find?_some h
  simpa using this

theorem entryOf_mem {st : RState} {d : String} {e : Settlement}
    (h : entryOf st d = some e) : e ∈ st.settled :=
  List.mem_of_find?_eq_some h

theorem settledQ_of_mem {st : RState} {k : String}
    (h : ∃ s ∈ st.settled, s.sid = k) : settledQ st k = true := by
  obtain ⟨s, hs, hk⟩ := h
  unfold settledQ entryOf
  rcases hf : st.settled.find? (·.sid == k) with _ | e
  · rw [List.find?_eq_none] at hf
    exact absurd (by simp [hk]) (hf s hs)
  · rw [hf]
    rfl

theorem settledQ_mem {st : RState} {k : String} (h : settledQ st k = true) :
    ∃ e, entryOf st k = some e ∧ e.sid = k := by
  unfold settledQ at h
  obtain ⟨e, he⟩ := Option.isSome_iff_exists.mp h
  exact ⟨e, he, entryOf_sid he⟩

theorem entryOf_append {st st2 : RState} {e : Settlement}
    (hs : st2.settled = st.settled ++ [e]) (d : String) :
    entryOf st2 d =
      (entryOf st d).or (if e.sid == d then some e else none) := by
  unfold entryOf
  rw [hs, List.find?_append]
  congr 1
  cases he : (e.sid == d) <;> simp [List.find?, he]

theorem entryOf_append_ne {st st2 : RState} {e : Settlement}
    (hs : st2.settled = st.settled ++ [e]) {d : String} (hd : e.sid ≠ d) :
    entryOf st2 d = entryOf st d := by
  rw [entryOf_append hs d, if_neg (by simpa using hd)]
  cases entryOf st d <;> rfl

theorem entryOf_append_self {st st2 : RState} {e : Settlement}
    (hs : st2.settled = st.settled ++ [e]) (hd : settledQ st e.sid = false) :
    entryOf st2 e.sid = some e := by
  rw [entryOf_append hs e.sid, if_pos (by simp)]
  unfold settledQ at hd
  rcases he : entryOf st e.sid with _ | x
  · rfl
  · rw [he] at hd
    cases hd

theorem settledQ_congr {st st' : RState} (h : st'.settled = st.settled)
    (d : String) : settledQ st' d = settledQ st d := by
  unfold settledQ entryOf
  rw [h]

/-! ## Initial state lemmas -/

theorem lookup_isSome_of_mem_fst {inputs : List (String × Value)} {k : String}
    (h : k ∈ inputs.map Prod.fst) : (inputs.lookup k).isSome = true := by
  induction inputs with
  | nil => cases h
  | cons kv rest ih =>
    simp only [List.map_cons, List.mem_cons] at h
    rcases h with h | h
    · subst h
      simp [List.lookup_cons]
    · rw [List.lookup_cons]
      cases hk : (k == kv.1)
      · simpa using ih h
      · rfl

theorem lookup_eq_of_mem_nodup {inputs : List (String × Value)} {k : String}
    {v : Value} (hmem : (k, v) ∈ inputs)
    (hnd : (inputs.map Prod.fst).Nodup) : inputs.lookup k = some v := by
  induction inputs with
  | nil => cases hmem
  | cons kv rest ih =>
    simp only [List.map_cons, List.nodup_cons] at hnd
    rcases List.mem_cons.mp hmem with h | h
    · rw [← h]
      simp [List.lookup_cons]
    · have hk : (k == kv.1) = false := by
        apply beq_false_of_ne
        intro he
        exact hnd.1 (he ▸ (List.mem_map.mpr ⟨(k, v), h, rfl⟩))
      rw [List.lookup_cons]
      rw [hk]
      exact ih h hnd.2

theorem mem_initInputs {inputs : List (String × Value)} {s : Settlement} :
    s ∈ initInputs inputs ↔ ∃ kv ∈ inputs, s = ⟨kv.1, kv.2, 0, none⟩ := by
  unfold initInputs
  rw [List.mem_map]
  constructor
  · rintro ⟨kv, hkv, rfl⟩
    exact ⟨kv, hkv, rfl⟩
  · rintro ⟨kv, hkv, rfl⟩
    exact ⟨kv, hkv, rfl⟩

theorem mem_initDefaults {g : Graph} {inputs : List (String × Value)}
    {s : Settlement} :
    s ∈ initDefaults g inputs ↔
      ∃ dn ∈ g.datas, inputs.lookup dn.did = none ∧
        ∃ v, dn.default = some v ∧ s = ⟨dn.did, v, 0, none⟩ := by
  unfold initDefaults
  rw [List.mem_filterMap]
  constructor
  · rintro ⟨dn, hdn, hf⟩
    rcases hd : dn.default with _ | v <;> rw [hd] at hf
    · cases hf
    · dsimp only at hf
      rcases hl : (inputs.lookup dn.did).isNone <;> rw [hl] at hf
      · simp at hf
      · rw [if_pos rfl] at hf
        cases hf
        exact ⟨dn, hdn, Option.isNone_iff_eq_none.mp hl, v, hd, rfl⟩
  · rintro ⟨dn, hdn, hl, v, hd, rfl⟩
    refine ⟨dn, hdn, ?_⟩
    rw [hd, hl]
    rfl

theorem mem_initState {g : Graph} {inputs : List (String × Value)}
    {s : Settlement} :
    s ∈ (initState g inputs).settled ↔
      s ∈ initInputs inputs ∨ s ∈ initDefaults g inputs := by
  unfold initState
  exact List.mem_append

theorem initState_base {g : Graph} {inputs : List (String × Value)}
    {s : Settlement} (hs : s ∈ (initState g inputs).settled) :
    s.producer = none ∧ s.cost = 0 := by
  rcases mem_initState.mp hs with h | h
  · obtain ⟨kv, _, rfl⟩ := mem_initInputs.mp h
    exact ⟨rfl, rfl⟩
  · obtain ⟨dn, _, _, v, _, rfl⟩ := mem_initDefaults.mp h
    exact ⟨rfl, rfl⟩

theorem filterMap_map_sublist {α β γ : Type} (l : List α) (f : α → Option β)
    (pr : β → γ) (pa : α → γ) (H : ∀ a b, f a = some b → pr b = pa a) :
    ((l.filterMap f).map pr).Sublist (l.map pa) := by
  induction l with
  | nil => simp
  | cons a l ih =>
    rcases hf : f a with _ | b
    · rw [List.filterMap_cons_none hf, List.map_cons]
      exact ih.cons _
    · rw [List.filterMap_cons_some hf, List.map_cons, List.map_cons, H a b hf]
      exact ih.cons₂ _

theorem initState_nodup {g : Graph} {inputs : List (String × Value)}
    (hg : (g.datas.map (·.did)).Nodup) (hi : InputsWF inputs) :
    ((initState g inputs).settled.map (·.sid)).Nodup := by
  unfold initState
  dsimp only
  rw [List.map_append, List.nodup_append]
  have hmap : (initInputs inputs).map (·.sid) = inputs.map Prod.fst := by
    unfold initInputs
    rw [List.map_map]
    rfl
  refine ⟨?_, ?_, ?_⟩
  · rw [hmap]
    exact hi
  · refine List.Nodup.sublist ?_ hg
    unfold initDefaults
    apply filterMap_map_sublist
    intro dn s hf
    rcases hd : dn.default with _ | v <;> rw [hd] at hf
    · cases hf
    · dsimp only at hf
      rcases hl : (inputs.lookup dn.did).isNone <;> rw [hl] at hf
      · simp at hf
      · rw [if_pos rfl] at hf
        cases hf
        rfl
  · intro k hk1 hk2
    rw [hmap] at hk1
    have hsome := lookup_isSome_of_mem_fst hk1
    obtain ⟨s, hs, hsid⟩ := List.mem_map.mp hk2
    obtain ⟨dn, _, hnone, v, _, rfl⟩ := mem_initDefaults.mp hs
    rw [← hsid] at hsome
    dsimp only at hsome
    rw [hnone] at hsome
    cases hsome

theorem initState_inputs_settled {g : Graph} {inputs : List (String × Value)}
    {k : String} (h : k ∈ inputs.map Prod.fst) :
    settledQ (initState g inputs) k = true := by
  obtain ⟨kv, hkv, hk⟩ := List.mem_map.mp h
  apply settledQ_of_mem
  exact ⟨⟨kv.1, kv.2, 0, none⟩,
    mem_initState.mpr (Or.inl (mem_initInputs.mpr ⟨kv, hkv, rfl⟩)), hk⟩

theorem initState_defaults_settled {g : Graph}
    {inputs : List (String × Value)} {dn : DataNode} (hdn : dn ∈ g.datas)
    (hd : dn.default.isSome) : settledQ (initState g inputs) dn.did = true := by
  rcases hl : inputs.lookup dn.did with _ | v
  · obtain ⟨v, hv⟩ := Option.isSome_iff_exists.mp hd
    apply settledQ_of_mem
    exact ⟨⟨dn.did, v, 0, none⟩,
      mem_initState.mpr (Or.inr (mem_initDefaults.mpr ⟨dn, hdn, hl, v, hv, rfl⟩)),
      rfl⟩
  · have : dn.did ∈ inputs.map Prod.fst := by
      induction inputs with
      | nil => cases hl
      | cons kv rest ih =>
        rw [List.lookup_cons] at hl
        cases hk : (dn.did == kv.1) <;> rw [hk] at hl
        · exact List.mem_cons_of_mem _ (ih hl)
        · simp only [List.map_cons, List.mem_cons]
          exact Or.inl (by simpa using hk)
    exact initState_inputs_settled this

theorem initState_settledQ {g : Graph} {inputs : List (String × Value)}
    {d : String} (h : settledQ (initState g inputs) d = true) :
    (inputs.lookup d).isSome = true ∨
      ∃ dn ∈ g.datas, dn.did = d ∧ dn.default.isSome := by
  obtain ⟨e, he, hsid⟩ := settledQ_mem h
  rcases mem_initState.mp (entryOf_mem he) with hm | hm
  · obtain ⟨kv, hkv, rfl⟩ := mem_initInputs.mp hm
    left
    rw [← hsid]
    exact lookup_isSome_of_mem_fst (List.mem_map.mpr ⟨kv, hkv, rfl⟩)
  · obtain ⟨dn, hdn, _, v, hv, rfl⟩ := mem_initDefaults.mp hm
    right
    exact ⟨dn, hdn, hsid, by rw [hv]; rfl⟩

/-! ## Termination: the loop reaches its fixpoint -/

theorem filter_length_le {α : Type} {l : List α} {p q : α → Bool}
    (himp : ∀ x ∈ l, q x = true → p x = true) :
    (l.filter q).length ≤ (l.filter p).length := by
  induction l with
  | nil => simp
  | cons a l ih =>
    have ih' := ih (fun x hx => himp x (List.mem_cons_of_mem _ hx))
    rw [List.filter_cons, List.filter_cons]
    cases hqa : q a
    · rw [if_neg (by simp)]
      cases hpa : p a
      · rw [if_neg (by simp)]
        exact ih'
      · rw [if_pos rfl]
        simp only [List.length_cons]
        omega
    · rw [if_pos rfl, if_pos (himp a (List.mem_cons_self _ _) hqa)]
      simpa using ih'

theorem filter_length_lt {α : Type} {l : List α} {p q : α → Bool}
    (himp : ∀ x ∈ l, q x = true → p x = true) {y : α} (hy : y ∈ l)
    (hpy : p y = true) (hqy : q y = false) :
    (l.filter q).length < (l.filter p).length := by
  induction l with
  | nil => cases hy
  | cons a l ih =>
    have hle : (l.filter q).length ≤ (l.filter p).length :=
      filter_length_le (fun x hx => himp x (List.mem_cons_of_mem _ hx))
    rw [List.filter_cons, List.filter_cons]
    rcases List.mem_cons.mp hy with h | h
    · subst h
      rw [if_neg (by simp [hqy]), if_pos hpy]
      simp only [List.length_cons]
      omega
    · have ih' := ih (fun x hx => himp x (List.mem_cons_of_mem _ hx)) h
      cases hqa : q a
      · rw [if_neg (by simp)]
        cases hpa : p a
        · rw [if_neg (by simp)]
          exact ih'
        · rw [if_pos rfl]
          simp only [List.length_cons]
          omega
      · rw [if_pos rfl, if_pos (himp a (List.mem_cons_self _ _) hqa)]
        simpa using ih'

theorem measure_decrease {g : Graph} {inputs : List (String × Value)}
    {st : RState} {c : Cand}
    (h : selectBest (candidates g inputs st) = some c) :
    measureOf g (runStep g inputs st) < measureOf g st := by
  have hc := selectBest_mem h
  obtain ⟨hout, hset, f, hget, hcid, hnf, hdom, m, hr, hcost⟩ :=
    mem_candidates.mp hc
  rw [runStep_eq_of_some h]
  have hsr := applyCand_stepResult g st c
  have hclen : c.cf < g.funcs.length := by
    by_contra hno
    push_neg at hno
    rw [List.get?_eq_none.mpr hno] at hget
    cases hget
  rcases stepResult_cases hsr with ⟨hs, hi2, hf2⟩ | ⟨v, hs, hf2⟩
  · unfold measureOf
    have h1 : ((outIds g).filter
        (fun d => ¬ settledQ (applyCand g st c) d)).length =
        ((outIds g).filter (fun d => ¬ settledQ st d)).length := by
      congr 1
      apply List.filter_congr
      intro d _
      rw [settledQ_congr hs d]
    rw [h1]
    have h2 : ((List.range g.funcs.length).filter
        (fun i => i ∉ (applyCand g st c).failed)).length <
        ((List.range g.funcs.length).filter (fun i => i ∉ st.failed)).length := by
      refine @filter_length_lt _ _ _ _ ?_ c.cf ?_ ?_ ?_
      · intro x _ hx
        rw [hf2] at hx
        simp only [decide_eq_true_eq] at hx ⊢
        intro hmem
        exact hx (List.mem_append_left _ hmem)
      · exact List.mem_range.mpr hclen
      · simpa using hnf
      · rw [hf2]
        simp
    omega
  · unfold measureOf
    have h2 : ((List.range g.funcs.length).filter
        (fun i => i ∉ (applyCand g st c).failed)).length =
        ((List.range g.funcs.length).filter (fun i => i ∉ st.failed)).length := by
      congr 1
      apply List.filter_congr
      intro i _
      rw [hf2]
    rw [h2]
    have h1 : ((outIds g).filter
        (fun d => ¬ settledQ (applyCand g st c) d)).length <
        ((outIds g).filter (fun d => ¬ settledQ st d)).length := by
      refine @filter_length_lt _ _ _ _ ?_ c.cid ?_ ?_ ?_
      · intro x _ hx
        simp only [decide_eq_true_eq] at hx ⊢
        intro hmem
        apply hx
        exact settledQ_mono (stepResult_extends hsr) hmem
      · exact hout
      · simpa using hset
      · have : settledQ (applyCand g st c) c.cid = true := by
          apply settledQ_of_mem
          exact ⟨⟨c.cid, v, c.cost, some c.cf⟩, by rw [hs]; simp, rfl⟩
        simp [this]
    omega

theorem measure_le (g : Graph) (st : RState) :
    measureOf g st ≤ (outIds g).length + g.funcs.length := by
  unfold measureOf
  have h1 := List.length_filter_le (fun d => ¬ settledQ st d) (outIds g)
  have h2 := List.length_filter_le (fun i => i ∉ st.failed)
    (List.range g.funcs.length)
  rw [List.length_range] at h2
  omega

theorem loopN_done {g : Graph} {inputs : List (String × Value)}
    {req : List String} {n : Nat} {st : RState} (h : measureOf g st < n) :
    isDone g inputs req (loopN g inputs req n st) = true := by
  induction n generalizing st with
  | zero => omega
  | succ n ih =>
    unfold loopN
    by_cases hd : isDone g inputs req st
    · rw [if_pos hd]
      exact hd
    · rw [if_neg hd]
      apply ih
      have hne : (candidates g inputs st) ≠ [] := by
        intro hnil
        apply hd
        unfold isDone
        rw [hnil]
        simp
      rcases hsel : selectBest (candidates g inputs st) with _ | c
      · exact absurd (selectBest_none_iff.mp hsel) hne
      · have := @measure_decrease g inputs st c hsel
        omega

theorem dispatchRun_done (g : Graph) (inputs : List (String × Value))
    (req : List String) :
    isDone g inputs req (dispatchRun g inputs req) = true := by
  unfold dispatchRun fuelOf
  apply loopN_done
  have := measure_le g (initState g inputs)
  omega

/-! ## Invariant preservation -/

theorem entryOf_congr {st st' : RState} (h : st'.settled = st.settled)
    (d : String) : entryOf st' d = entryOf st d := by
  unfold entryOf
  rw [h]

theorem readyCost_congr {st st' : RState} (h : st'.settled = st.settled)
    (ins : List String) : readyCost st' ins = readyCost st ins := by
  induction ins with
  | nil => rfl
  | cons x xs ih =>
    rw [readyCost_cons, readyCost_cons, ih]
    unfold costOf
    rw [entryOf_congr h]

theorem entryOf_append_cases {st st2 : RState} {e : Settlement}
    (hs : st2.settled = st.settled ++ [e]) {d : String} {ex : Settlement}
    (hnone : entryOf st d = none) (hex : entryOf st2 d = some ex) :
    ex = e ∧ e.sid = d := by
  rw [entryOf_append hs d, hnone] at hex
  simp only [Option.none_or] at hex
  by_cases hbe : e.sid = d
  · rw [if_pos (by simpa using hbe)] at hex
    injection hex with h
    exact ⟨h.symm, hbe⟩
  · rw [if_neg (by simpa using hbe)] at hex
    cases hex

theorem nodupS_append {st : RState} (h : (st.settled.map (·.sid)).Nodup)
    {e : Settlement} (he : settledQ st e.sid = false) :
    ((st.settled ++ [e]).map (·.sid)).Nodup := by
  rw [List.map_append, List.nodup_append]
  refine ⟨h, by simp, ?_⟩
  intro k hk1 hk2
  simp only [List.map_cons, List.map_nil, List.mem_singleton] at hk2
  subst hk2
  obtain ⟨s, hs, hsid⟩ := List.mem_map.mp hk1
  rw [settledQ_of_mem ⟨s, hs, hsid⟩] at he
  cases he

theorem inv_init {g : Graph} {inputs : List (String × Value)}
    (hwf : GraphWF g) (hi : InputsWF inputs) :
    Inv g inputs (initState g inputs) := by
  refine ⟨initState_nodup hwf.2 hi, ?_, ?_, ?_, ?_, ?_, ?_, ?_, ?_, ?_, ?_⟩
  · intro s hs
    simp [(initState_base hs).2]
  · intro c hc s hs
    obtain ⟨_, _, f, hget, _, _, _, m, hr, hcost⟩ := mem_candidates.mp hc
    have hwt : 0 ≤ f.weight := hwf.1 f (List.get?_mem hget)
    have hm := readyCost_nonneg hr
    rw [(initState_base hs).2, hcost]
    omega
  · intro s hs i hp
    rw [(initState_base hs).1] at hp
    cases hp
  · intro s hs _
    refine ⟨?_, (initState_base hs).2⟩
    rcases mem_initState.mp hs with h | h
    · obtain ⟨kv, hkv, rfl⟩ := mem_initInputs.mp h
      exact Or.inl (lookup_eq_of_mem_nodup hkv hi)
    · obtain ⟨dn, hdn, _, v, hv, rfl⟩ := mem_initDefaults.mp h
      exact Or.inr ⟨dn, hdn, rfl, hv⟩
  · exact fun k hk => initState_inputs_settled hk
  · exact fun dn hdn hd => initState_defaults_settled hdn hd
  · simp [initState]
  · intro inv hinv
    simp [initState] at hinv
  · intro inv hinv
    simp [initState] at hinv
  · intro i hi
    simp [initState] at hi

theorem inv_settled {g : Graph} {inputs : List (String × Value)} {st : RState}
    (hwf : GraphWF g) (hInv : Inv g inputs st) {c : Cand}
    (hcmem : c ∈ candidates g inputs st)
    (hmin : ∀ x ∈ candidates g inputs st, c.cost ≤ x.cost)
    {v : Value} {st2 : RState}
    (hs2 : st2.settled = st.settled ++ [⟨c.cid, v, c.cost, some c.cf⟩])
    (hf2 : st2.failed = st.failed)
    (hi2 : st2.invocations = st.invocations ∨
      ∃ nargs nouts,
        st2.invocations = st.invocations ++ [⟨c.cf, nargs, nouts⟩] ∧
        (∀ f0, g.funcs.get? c.cf = some f0 → f0.call nargs = some nouts) ∧
        st.invocations.find? (·.idx == c.cf) = none)
    (hprovInv : ∃ inv2 ∈ st2.invocations, inv2.idx = c.cf ∧
      ∀ f0, g.funcs.get? c.cf = some f0 →
        inv2.outs.get? (f0.outputs.findIdx (· == c.cid)) = some v) :
    Inv g inputs st2 := by
  have hext : Extends st st2 := by
    refine ⟨⟨_, hs2⟩, ?_, ?_⟩
    · rw [hf2]
      exact fun i hi => hi
    · rcases hi2 with h | ⟨na, no, h, _, _⟩
      · exact ⟨[], by rw [h, List.append_nil]⟩
      · exact ⟨_, h⟩
  obtain ⟨houtIds, hset, f, hget, hout, hnf, hdom, m, hr, hcost⟩ :=
    mem_candidates.mp hcmem
  have hwt : 0 ≤ f.weight := hwf.1 f (List.get?_mem hget)
  have hm0 : 0 ≤ m := readyCost_nonneg hr
  refine ⟨?_, ?_, ?_, ?_, ?_, ?_, ?_, ?_, ?_, ?_, ?_⟩
  · rw [hs2]
    exact nodupS_append hInv.nodupS hset
  · intro s hs
    rw [hs2] at hs
    rcases List.mem_append.mp hs with h | h
    · exact hInv.nonneg s h
    · simp only [List.mem_singleton] at h
      subst h
      show 0 ≤ c.cost
      rw [hcost]
      omega
  · intro c' hc' s hs
    obtain ⟨hout', hset', f'', hget'', hcid'', hnf'', hdom'', m'', hr'', hcost''⟩ :=
      mem_candidates.mp hc'
    have hwt'' : 0 ≤ f''.weight := hwf.1 f'' (List.get?_mem hget'')
    have hsetSt : settledQ st c'.cid = false := by
      rcases hq : settledQ st c'.cid
      · rfl
      · rw [settledQ_mono hext hq] at hset'
        cases hset'
    rcases hcase : readyCost st f''.inputs with _ | m0
    · obtain ⟨x, hx, hxnone⟩ := readyCost_none hcase
      obtain ⟨ex, hex, hexle⟩ := readyCost_mem hr'' hx
      obtain ⟨hxe, _⟩ := entryOf_append_cases hs2 hxnone hex
      have hcle : c.cost ≤ m'' := by
        rw [hxe] at hexle
        exact hexle
      rw [hs2] at hs
      rcases List.mem_append.mp hs with h | h
      · have hsc := hInv.candLB c hcmem s h
        rw [hcost'']
        omega
      · simp only [List.mem_singleton] at h
        subst h
        show (⟨c.cid, v, c.cost, some c.cf⟩ : Settlement).cost ≤ c'.cost
        rw [hcost'']
        dsimp only
        omega
    · have hmono := readyCost_mono hext hcase
      rw [hr''] at hmono
      injection hmono with hmm
      have hc'st : c' ∈ candidates g inputs st :=
        mem_candidates.mpr ⟨hout', hsetSt, f'', hget'', hcid'',
          (by rw [hf2] at hnf''; exact hnf''), hdom'', m0, hcase,
          (by rw [hcost'', hmm])⟩
      rw [hs2] at hs
      rcases List.mem_append.mp hs with h | h
      · exact hInv.candLB c' hc'st s h
      · simp only [List.mem_singleton] at h
        subst h
        exact hmin c' hc'st
  · intro s hs i hp
    rw [hs2] at hs
    rcases List.mem_append.mp hs with h | h
    · obtain ⟨f0, h1, h2, h3, ⟨mm, h4, h5⟩, inv0, h6, h7, h8⟩ :=
        hInv.prov s h i hp
      exact ⟨f0, h1, h2, h3, ⟨mm, readyCost_mono hext h4, h5⟩,
        inv0, invocations_mem_mono hext h6, h7, h8⟩
    · simp only [List.mem_singleton] at h
      subst h
      dsimp only at hp ⊢
      injection hp with hpi
      subst hpi
      obtain ⟨inv2, hinv2, hidx2, hget2⟩ := hprovInv
      exact ⟨f, hget, hout, hdom, ⟨m, readyCost_mono hext hr, hcost⟩,
        inv2, hinv2, hidx2, hget2 f hget⟩
  · intro s hs hp
    rw [hs2] at hs
    rcases List.mem_append.mp hs with h | h
    · exact hInv.provNone s h hp
    · simp only [List.mem_singleton] at h
      subst h
      cases hp
  · intro k hk
    exact settledQ_mono hext (hInv.inputsSettled k hk)
  · intro dn hdn hd
    exact settledQ_mono hext (hInv.defaultsSettled dn hdn hd)
  · rcases hi2 with h | ⟨na, no, h, _, hfindnone⟩
    · rw [h]
      exact hInv.invNodup
    · rw [h, List.map_append, List.nodup_append]
      refine ⟨hInv.invNodup, by simp, ?_⟩
      intro j hj1 hj2
      simp only [List.map_cons, List.map_nil, List.mem_singleton] at hj2
      subst hj2
      obtain ⟨inv0, hinv0, hidx0⟩ := List.mem_map.mp hj1
      exact List.find?_eq_none.mp hfindnone inv0 hinv0 (by simp [hidx0])
  · intro inv hinv
    rcases hi2 with h | ⟨na, no, h, _, _⟩
    · rw [h] at hinv
      obtain ⟨s, hs, hsp⟩ := hInv.invProd inv hinv
      exact ⟨s, settled_mem_mono hext hs, hsp⟩
    · rw [h] at hinv
      rcases List.mem_append.mp hinv with hm | hm
      · obtain ⟨s, hs, hsp⟩ := hInv.invProd inv hm
        exact ⟨s, settled_mem_mono hext hs, hsp⟩
      · simp only [List.mem_singleton] at hm
        subst hm
        refine ⟨⟨c.cid, v, c.cost, some c.cf⟩, ?_, rfl⟩
        rw [hs2]
        exact List.mem_append_right _ (List.mem_singleton.mpr rfl)
  · intro inv hinv
    rcases hi2 with h | ⟨na, no, h, hcall0, _⟩
    · rw [h] at hinv
      exact hInv.invCall inv hinv
    · rw [h] at hinv
      rcases List.mem_append.mp hinv with hm | hm
      · exact hInv.invCall inv hm
      · simp only [List.mem_singleton] at hm
        subst hm
        exact ⟨f, hget, hcall0 f hget⟩
  · intro i hi
    rw [hf2] at hi
    exact hInv.failedSpec i hi

theorem inv_failed {g : Graph} {inputs : List (String × Value)} {st : RState}
    (hInv : Inv g inputs st) {c : Cand}
    {st2 : RState} (hs2 : st2.settled = st.settled)
    (hi2 : st2.invocations = st.invocations)
    (hf2 : st2.failed = st.failed ++ [c.cf])
    (hev : ∃ f0, g.funcs.get? c.cf = some f0 ∧ domainOK f0 inputs = true ∧
      ∃ args, f0.call args = none ∨
        ∃ outs pos, f0.call args = some outs ∧ pos < f0.outputs.length ∧
          outs.length ≤ pos) :
    Inv g inputs st2 := by
  have hsub : ∀ c' ∈ candidates g inputs st2, c' ∈ candidates g inputs st := by
    intro c' hc'
    obtain ⟨h1, h2, f'', h3, h4, h5, h6, m'', h7, h8⟩ := mem_candidates.mp hc'
    refine mem_candidates.mpr ⟨h1, ?_, f'', h3, h4, ?_, h6, m'', ?_, h8⟩
    · rw [← settledQ_congr hs2 c'.cid]
      exact h2
    · intro hmem
      exact h5 (hf2 ▸ List.mem_append_left _ hmem)
    · rw [← readyCost_congr hs2]
      exact h7
  refine ⟨?_, ?_, ?_, ?_, ?_, ?_, ?_, ?_, ?_, ?_, ?_⟩
  · rw [hs2]
    exact hInv.nodupS
  · intro s hs
    rw [hs2] at hs
    exact hInv.nonneg s hs
  · intro c' hc' s hs
    rw [hs2] at hs
    exact hInv.candLB c' (hsub c' hc') s hs
  · intro s hs i hp
    rw [hs2] at hs
    obtain ⟨f0, h1, h2, h3, ⟨mm, h4, h5⟩, inv0, h6, h7, h8⟩ :=
      hInv.prov s hs i hp
    refine ⟨f0, h1, h2, h3, ⟨mm, ?_, h5⟩, inv0, ?_, h7, h8⟩
    · rw [readyCost_congr hs2]
      exact h4
    · rw [hi2]
      exact h6
  · intro s hs hp
    rw [hs2] at hs
    exact hInv.provNone s hs hp
  · intro k hk
    have := hInv.inputsSettled k hk
    rw [← settledQ_congr hs2 k] at this
    exact this
  · intro dn hdn hd
    have := hInv.defaultsSettled dn hdn hd
    rw [← settledQ_congr hs2 dn.did] at this
    exact this
  · rw [hi2]
    exact hInv.invNodup
  · intro inv hinv
    rw [hi2] at hinv
    obtain ⟨s, hs, hsp⟩ := hInv.invProd inv hinv
    refine ⟨s, ?_, hsp⟩
    rw [hs2]
    exact hs
  · intro inv hinv
    rw [hi2] at hinv
    exact hInv.invCall inv hinv
  · intro i hi
    rw [hf2] at hi
    rcases List.mem_append.mp hi with h | h
    · exact hInv.failedSpec i h
    · simp only [List.mem_singleton] at h
      subst h
      obtain ⟨f0, h1, h2, h3⟩ := hev
      exact ⟨f0, h1, h2, h3⟩

theorem inv_step {g : Graph} {inputs : List (String × Value)} {st : RState}
    (hwf : GraphWF g) (hInv : Inv g inputs st) :
    Inv g inputs (runStep g inputs st) := by
  rcases hsel : selectBest (candidates g inputs st) with _ | c
  · rw [runStep_eq_of_none hsel]
    exact hInv
  · rw [runStep_eq_of_some hsel]
    have hcmem := selectBest_mem hsel
    have hmin := selectBest_min hsel
    obtain ⟨houtIds, hset, f, hget, hout, hnf, hdom, m, hr, hcost⟩ :=
      mem_candidates.mp hcmem
    have hsr := applyCand_stepResult g st c
    generalize hst2 : applyCand g st c = st2 at hsr ⊢
    cases hsr with
    | settleCached f' inv v hget' hfind ho =>
      rw [hget'] at hget
      injection hget with hff
      subst hff
      refine inv_settled hwf hInv hcmem hmin rfl rfl (Or.inl rfl) ?_
      refine ⟨inv, List.mem_of_find?_eq_some hfind,
        by simpa using List.find?_some hfind, ?_⟩
      intro f0 hf0
      rw [hget'] at hf0
      injection hf0 with h
      subst h
      exact ho
    | settleFresh f' outs v hget' hfind hcall ho =>
      rw [hget'] at hget
      injection hget with hff
      subst hff
      refine inv_settled hwf hInv hcmem hmin rfl rfl (Or.inr ?_) ?_
      · refine ⟨argsFor st f'.inputs, outs, rfl, ?_, hfind⟩
        intro f0 h
        rw [hget'] at h
        injection h with hh
        subst hh
        exact hcall
      · refine ⟨⟨c.cf, argsFor st f'.inputs, outs⟩,
          List.mem_append_right _ (List.mem_singleton.mpr rfl), rfl, ?_⟩
        intro f0 h
        rw [hget'] at h
        injection h with hh
        subst hh
        exact ho
    | failNoFun hget' =>
      rw [hget'] at hget
      cases hget
    | failCachedArity f' inv hget' hfind ho =>
      rw [hget'] at hget
      injection hget with hff
      subst hff
      refine inv_failed hInv rfl rfl rfl ?_
      obtain ⟨f1, hf1, hcall1⟩ :=
        hInv.invCall inv (List.mem_of_find?_eq_some hfind)
      have hidx : inv.idx = c.cf := by simpa using List.find?_some hfind
      rw [hidx, hget'] at hf1
      injection hf1 with h
      subst h
      refine ⟨f', hget', hdom, inv.args,
        Or.inr ⟨inv.outs, f'.outputs.findIdx (· == c.cid), hcall1, ?_, ?_⟩⟩
      · exact List.findIdx_lt_length_of_exists ⟨c.cid, hout, by simp⟩
      · exact List.get?_eq_none.mp ho
    | failCall f' hget' hfind hcall =>
      rw [hget'] at hget
      injection hget with hff
      subst hff
      exact inv_failed hInv rfl rfl rfl
        ⟨f', hget', hdom, argsFor st f'.inputs, Or.inl hcall⟩
    | failFreshArity f' outs hget' hfind hcall ho =>
      rw [hget'] at hget
      injection hget with hff
      subst hff
      refine inv_failed hInv rfl rfl rfl
        ⟨f', hget', hdom, argsFor st f'.inputs,
          Or.inr ⟨outs, f'.outputs.findIdx (· == c.cid), hcall, ?_, ?_⟩⟩
      · exact List.findIdx_lt_length_of_exists ⟨c.cid, hout, by simp⟩
      · exact List.get?_eq_none.mp ho

theorem inv_loopN {g : Graph} {inputs : List (String × Value)}
    {req : List String} (hwf : GraphWF g) {st : RState}
    (hInv : Inv g inputs st) (n : Nat) :
    Inv g inputs (loopN g inputs req n st) := by
  induction n generalizing st with
  | zero => exact hInv
  | succ n ih =>
    unfold loopN
    by_cases h : isDone g inputs req st
    · rw [if_pos h]
      exact hInv
    · rw [if_neg h]
      exact ih (inv_step hwf hInv)

theorem inv_dispatchRun {g : Graph} {inputs : List (String × Value)}
    {req : List String} (hwf : GraphWF g) (hi : InputsWF inputs) :
    Inv g inputs (dispatchRun g inputs req) :=
  inv_loopN hwf (inv_init hwf hi) _

/-! ## Costs of later settlements dominate earlier ones -/

theorem loopN_cost_lb {g : Graph} {inputs : List (String × Value)}
    {req : List String} (hwf : GraphWF g) :
    ∀ (n : Nat) (st : RState), Inv g inputs st → ∀ x, entryOf st x = none →
      ∀ ex, entryOf (loopN g inputs req n st) x = some ex →
      ∀ s ∈ st.settled, s.cost ≤ ex.cost := by
  intro n
  induction n with
  | zero =>
    intro st _ x hx ex hex
    unfold loopN at hex
    rw [hx] at hex
    cases hex
  | succ n ih =>
    intro st hInv x hx ex hex s hs
    unfold loopN at hex
    by_cases hd : isDone g inputs req st
    · rw [if_pos hd] at hex
      rw [hx] at hex
      cases hex
    · rw [if_neg hd] at hex
      rcases hsel : selectBest (candidates g inputs st) with _ | c
      · rw [runStep_eq_of_none hsel] at hex
        exact ih st hInv x hx ex hex s hs
      · rw [runStep_eq_of_some hsel] at hex
        have hsr := applyCand_stepResult g st c
        have hInv2 : Inv g inputs (applyCand g st c) := by
          have h2 := inv_step hwf hInv
          rw [runStep_eq_of_some hsel] at h2
          exact h2
        rcases stepResult_cases hsr with ⟨hse, hie, hfe⟩ | ⟨v, hse, hfe⟩
        · have hx2 : entryOf (applyCand g st c) x = none := by
            rw [entryOf_congr hse]
            exact hx
          exact ih (applyCand g st c) hInv2 x hx2 ex hex s
            (by rw [hse]; exact hs)
        · by_cases hxc : c.cid = x
          · subst hxc
            have hqf : settledQ st c.cid = false := by
              unfold settledQ
              rw [hx]
              rfl
            have hentry : entryOf (applyCand g st c) c.cid =
                some ⟨c.cid, v, c.cost, some c.cf⟩ :=
              entryOf_append_self hse hqf
            have hex2 := entryOf_mono
              (loopN_extends g inputs req n (applyCand g st c)) hentry
            rw [hex] at hex2
            injection hex2 with hxe
            have hle := hInv.candLB c (selectBest_mem hsel) s hs
            rw [hxe]
            exact hle
          · have hx2 : entryOf (applyCand g st c) x = none := by
              rw [entryOf_append hse x, hx]
              simp only [Option.none_or]
              rw [if_neg (by simpa using hxc)]
            exact ih (applyCand g st c) hInv2 x hx2 ex hex s
              (by rw [hse]; exact List.mem_append_left _ hs)

/-! ## Completeness: settleable ids are settled at queue exhaustion -/

theorem mem_fst_of_lookup {inputs : List (String × Value)} {k : String}
    {v : Value} (h : inputs.lookup k = some v) : k ∈ inputs.map Prod.fst := by
  induction inputs with
  | nil => cases h
  | cons kv rest ih =>
    rw [List.lookup_cons] at h
    cases hk : (k == kv.1) <;> rw [hk] at h
    · exact List.mem_cons_of_mem _ (ih h)
    · simp only [List.map_cons, List.mem_cons]
      exact Or.inl (by simpa using hk)

theorem settleable_settled {g : Graph} {inputs : List (String × Value)}
    {st : RState} (hInv : Inv g inputs st)
    (hc : candidates g inputs st = []) {d : String}
    (hs : Settleable g inputs d) : settledQ st d = true := by
  induction hs with
  | input d v hlook =>
    exact hInv.inputsSettled d (mem_fst_of_lookup hlook)
  | dflt dn hdn hd => exact hInv.defaultsSettled dn hdn hd
  | fn d i f hget hout hdom htot hins ih =>
    by_contra hq
    have hqf : settledQ st d = false := by
      rcases h : settledQ st d
      · rfl
      · exact absurd h hq
    have hall : ∀ x ∈ f.inputs, settledQ st x = true := ih
    obtain ⟨m, hm⟩ := readyCost_isSome hall
    have hnf : i ∉ st.failed := by
      intro hif
      obtain ⟨f1, hf1, hdom1, args, hev⟩ := hInv.failedSpec i hif
      rw [hget] at hf1
      injection hf1 with h
      subst h
      obtain ⟨outs, hcall, hlen⟩ := htot args
      rcases hev with h | ⟨outs2, pos, hcall2, hplen, holen⟩
      · rw [hcall] at h
        cases h
      · rw [hcall] at hcall2
        injection hcall2 with h2
        subst h2
        omega
    have hd_out : d ∈ outIds g := by
      unfold outIds
      rw [List.mem_dedup, List.mem_flatMap]
      exact ⟨f, List.get?_mem hget, hout⟩
    have hmem : (⟨f.weight + m, d, i⟩ : Cand) ∈ candidates g inputs st :=
      mem_candidates.mpr ⟨hd_out, hqf, f, hget, hout, hnf, hdom, m, hm, rfl⟩
    rw [hc] at hmem
    cases hmem

theorem dispatchRun_complete {g : Graph} {inputs : List (String × Value)}
    {req : List String} (hwf : GraphWF g) (hi : InputsWF inputs) {o : String}
    (ho : o ∈ req) (hs : Settleable g inputs o) :
    settledQ (dispatchRun g inputs req) o = true := by
  have hdone := dispatchRun_done g inputs req
  unfold isDone at hdone
  rcases Bool.or_eq_true_iff.mp hdone with h | h
  · obtain ⟨_, hall⟩ := Bool.and_eq_true_iff.mp h
    exact List.all_eq_true.mp hall o ho
  · apply settleable_settled (inv_dispatchRun hwf hi) _ hs
    rcases hcand : candidates g inputs (dispatchRun g inputs req) with _ | ⟨a, l⟩
    · rfl
    · rw [hcand] at h
      cases h

/-! ## The solution mapping mirrors the settlements -/

theorem solutionOf_lookup (st : RState) (d : String) :
    (solutionOf st).lookup d = (entryOf st d).map (·.value) := by
  unfold solutionOf entryOf
  induction st.settled with
  | nil => rfl
  | cons s l ih =>
    rw [List.map_cons]
    by_cases h : s.sid = d
    · rw [List.find?_cons_of_pos _ (by simp [h])]
      rw [List.lookup_cons]
      have hb : (d == s.sid) = true := by simp [h]
      rw [hb]
      rfl
    · rw [List.find?_cons_of_neg _ (by simp [h])]
      rw [List.lookup_cons]
      have hb : (d == s.sid) = false := by
        apply beq_false_of_ne
        intro hh
        exact h hh.symm
      rw [hb]
      exact ih

theorem solution_keys (st : RState) (d : String) :
    ((solutionOf st).lookup d).isSome = settledQ st d := by
  rw [solutionOf_lookup]
  unfold settledQ
  cases entryOf st d <;> rfl

/-! ## Report generator lemmas -/

theorem procInp_ok {force : Bool} {conv : String → String}
    {exInp : String → Value} {l : List String} {vfid : Value}
    (hall : ∀ fp ∈ l, exInp (conv fp) = vfid) :
    ∀ exp, (exp = none ∨ exp = some vfid) →
      ∃ exp' ts, procInp force conv exInp l exp = .ok (exp', ts) ∧
        (exp' = none ∨ exp' = some vfid) := by
  induction l with
  | nil => exact fun exp hexp => ⟨exp, [], rfl, hexp⟩
  | cons fp rest ih =>
    intro exp hexp
    have hv : exInp (conv fp) = vfid := hall fp (List.mem_cons_self _ _)
    have hchk : checkVfid force exp (conv fp) (exInp (conv fp)) =
        .ok (some vfid) := by
      rw [hv]
      rcases hexp with h | h <;> subst h
      · rfl
      · unfold checkVfid
        simp
    obtain ⟨exp', ts, hres, hexp'⟩ :=
      ih (fun x hx => hall x (List.mem_cons_of_mem _ hx)) (some vfid)
        (Or.inr rfl)
    refine ⟨exp', (conv fp, "inp", Rep.inpRep (exInp (conv fp))) :: ts, ?_, hexp'⟩
    unfold procInp
    rw [hchk]
    dsimp only
    rw [hres]

theorem procOut_ok {force : Bool} {conv : String → String}
    {exOut : String → Value × Value} {l : List String} {vfid : Value}
    (hall : ∀ fp ∈ l, (exOut (conv fp)).1 = vfid) :
    ∀ exp, (exp = none ∨ exp = some vfid) →
      ∃ exp' ts, procOut force conv exOut l exp = .ok (exp', ts) ∧
        (exp' = none ∨ exp' = some vfid) := by
  induction l with
  | nil => exact fun exp hexp => ⟨exp, [], rfl, hexp⟩
  | cons fp rest ih =>
    intro exp hexp
    have hv : (exOut (conv fp)).1 = vfid := hall fp (List.mem_cons_self _ _)
    have hchk : checkVfid force exp (conv fp) (exOut (conv fp)).1 =
        .ok (some vfid) := by
      rw [hv]
      rcases hexp with h | h <;> subst h
      · rfl
      · unfold checkVfid
        simp
    obtain ⟨exp', ts, hres, hexp'⟩ :=
      ih (fun x hx => hall x (List.mem_cons_of_mem _ hx)) (some vfid)
        (Or.inr rfl)
    refine ⟨exp', (conv fp, "out", Rep.outRep (exOut (conv fp)).2) :: ts, ?_,
      hexp'⟩
    unfold procOut
    rw [hchk]
    dsimp only
    rw [hres]

/-! ## The claims -/

/-- C9: the two branch-eligibility predicates of the cycle model are
mutually exclusive: for every input mapping `kwargs`, at most one of
`is_nedc kwargs` and `is_wltp kwargs` returns true, because both inspect
the value of the first key matching `cycle_type` and compare it against
the two distinct strings `'NEDC'` and `'WLTP'`; so the NEDC and WLTP
nested sub-models can never both be eligible in one run. -/
theorem claim9_cycle_exclusive (kwargs : List (String × Value)) :
    (is_nedc kwargs && is_wltp kwargs) = false := by
  induction kwargs with
  | nil => rfl
  | cons kv kw ih =>
    obtain ⟨k, v⟩ := kv
    unfold is_nedc is_wltp
    by_cases h : keyMatch k = true
    · rw [if_pos h, if_pos h]
      rcases hv : (v == Value.vstr "NEDC")
      · rfl
      · have hveq : v = Value.vstr "NEDC" := by simpa using hv
        subst hveq
        decide
    · rw [if_neg h, if_neg h]
      exact ih

/-- C10: `Report.yield_report_tuples_from_iofiles` ignores its
`expected_vfid` parameter entirely: the body reassigns it to `None`
(report.py line 93) before any file is processed, so two calls differing
only in `expected_vfid` yield the same tuples and raise identically; and
the mismatch check compares each file only against the id extracted from
the first file processed, so a run whose files all carry one common id
succeeds no matter what id the caller supplied. -/
theorem claim10_expected_vfid_ignored (force : Bool) (conv : String → String)
    (exInp : String → Value) (exOut : String → Value × Value)
    (iofiles : PFiles) :
    (∀ e1 e2 : Option Value,
      yield_report_tuples force conv exInp exOut iofiles e1 =
        yield_report_tuples force conv exInp exOut iofiles e2) ∧
    (∀ vfid : Value, (∀ fp ∈ iofiles.inp, exInp (conv fp) = vfid) →
      (∀ fp ∈ iofiles.out, (exOut (conv fp)).1 = vfid) →
      ∀ e : Option Value, ∃ ts,
        yield_report_tuples force conv exInp exOut iofiles e = .ok ts) := by
  refine ⟨fun e1 e2 => rfl, ?_⟩
  intro vfid hinp hout e
  obtain ⟨e1, t1, h1, he1⟩ := procInp_ok hinp none (Or.inl rfl)
  obtain ⟨e2, t2, h2, _⟩ := procOut_ok hout e1 he1
  refine ⟨t1 ++ t2 ++ iofiles.other.map (fun fp => (conv fp, "other", Rep.noRep)), ?_⟩
  unfold yield_report_tuples
  dsimp only
  rw [h1]
  dsimp only
  rw [h2]

/-- C10 witness: with three files all carrying the id `"X"`, the generator
returns the same successful tuple list for a caller expectation of `"Y"`
as for no expectation at all. -/
theorem claim10_witness :
    (yield_report_tuples false id (fun _ => Value.vstr "X")
        (fun _ => (Value.vstr "X", Value.vnone)) ⟨["i1", "i2"], ["o1"], []⟩
        (some (Value.vstr "Y")) =
      yield_report_tuples false id (fun _ => Value.vstr "X")
        (fun _ => (Value.vstr "X", Value.vnone)) ⟨["i1", "i2"], ["o1"], []⟩
        none) ∧
    ∃ ts, yield_report_tuples false id (fun _ => Value.vstr "X")
        (fun _ => (Value.vstr "X", Value.vnone)) ⟨["i1", "i2"], ["o1"], []⟩
        (some (Value.vstr "Y")) = .ok ts := by
  refine ⟨?_, ?_⟩
  · exact (claim10_expected_vfid_ignored false id (fun _ => Value.vstr "X")
      (fun _ => (Value.vstr "X", Value.vnone)) ⟨["i1", "i2"], ["o1"], []⟩).1
      (some (Value.vstr "Y")) none
  · exact (claim10_expected_vfid_ignored false id (fun _ => Value.vstr "X")
      (fun _ => (Value.vstr "X", Value.vnone)) ⟨["i1", "i2"], ["o1"], []⟩).2
      (Value.vstr "X") (fun fp _ => rfl) (fun fp _ => rfl)
      (some (Value.vstr "Y"))

/-- C2: registration performs no cycle check - it rejects only duplicate
explicit function ids, and a two-node cycle registers fine; dispatch
always reaches the loop fixpoint with each data id settled at most once;
and every requested output with at least one eligible producer whose
transitive inputs are all settleable is present in `solution`. -/
theorem claim2_cycles_termination_completeness :
    (add_function ⟨[], []⟩ fabNode = .ok ⟨[], [fabNode]⟩ ∧
      add_function ⟨[], [fabNode]⟩ fbaNode = .ok ⟨[], [fabNode, fbaNode]⟩) ∧
    (∀ (g : Graph) (f : FuncNode), (∀ f0 ∈ g.funcs, f0.fid ≠ f.fid) →
      add_function g f = .ok { g with funcs := g.funcs ++ [f] }) ∧
    (∀ (g : Graph) (inputs : List (String × Value)) (req : List String),
      GraphWF g → InputsWF inputs →
      ((dispatchRun g inputs req).settled.map (·.sid)).Nodup ∧
      isDone g inputs req (dispatchRun g inputs req) = true ∧
      ∀ o ∈ req, Settleable g inputs o →
        ((solutionOf (dispatchRun g inputs req)).lookup o).isSome = true) := by
  refine ⟨⟨rfl, rfl⟩, ?_, ?_⟩
  · intro g f h
    unfold add_function
    rw [if_neg ?_]
    intro hc
    rw [List.any_eq_true] at hc
    obtain ⟨f0, hf0, hb⟩ := hc
    exact h f0 hf0 (by simpa using hb)
  · intro g inputs req hwf hi
    refine ⟨(@inv_dispatchRun g inputs req hwf hi).nodupS,
      dispatchRun_done g inputs req, ?_⟩
    intro o ho hs
    rw [solution_keys]
    exact dispatchRun_complete hwf hi ho hs

/-- C2 witness: the chain `a → b → c` resolves its requested, settleable
output `c`. -/
theorem claim2_witness :
    ((solutionOf (dispatchRun exGraphChain [("a", Value.vint 5)] ["c"])).lookup
      "c").isSome = true := by
  have hsa : Settleable exGraphChain [("a", Value.vint 5)] "a" :=
    Settleable.input "a" (Value.vint 5) rfl
  have hsb : Settleable exGraphChain [("a", Value.vint 5)] "b" := by
    refine Settleable.fn "b" 0 _ rfl (by decide) rfl
      (fun args => ⟨[Value.vint 1], rfl, by decide⟩) ?_
    intro x hx
    have : x = "a" := by simpa using hx
    subst this
    exact hsa
  have hsc : Settleable exGraphChain [("a", Value.vint 5)] "c" := by
    refine Settleable.fn "c" 1 _ rfl (by decide) rfl
      (fun args => ⟨[Value.vint 2], rfl, by decide⟩) ?_
    intro x hx
    have : x = "b" := by simpa using hx
    subst this
    exact hsb
  exact (claim2_cycles_termination_completeness.2.2 exGraphChain
    [("a", Value.vint 5)] ["c"] (by decide) (by decide)).2.2
    "c" (by decide) hsc

/-- C3: dispatch is deterministic - equal graph, inputs and requested
outputs give the identical workflow/solution pair, invocation order
included; and when two candidate producers of the same output tie on
cost, the queue never pops the later-registered one while the
earlier-registered candidate is pending. -/
theorem claim3_determinism_tiebreak :
    (∀ (g1 g2 : Graph) (i1 i2 : List (String × Value)) (r1 r2 : List String),
      g1 = g2 → i1 = i2 → r1 = r2 →
      dispatch g1 i1 r1 = dispatch g2 i2 r2) ∧
    (∀ (g : Graph) (inputs : List (String × Value)) (st : RState)
      (γ : ℤ) (d : String) (i j : Nat), i < j →
      (⟨γ, d, i⟩ : Cand) ∈ candidates g inputs st →
      selectBest (candidates g inputs st) ≠ some ⟨γ, d, j⟩) := by
  refine ⟨?_, ?_⟩
  · intro g1 g2 i1 i2 r1 r2 hg hi hr
    rw [hg, hi, hr]
  · intro g inputs st γ d i j hij hmem hsel
    obtain ⟨l1, l2, hsplit, hgt⟩ := selectBest_split hsel
    have hpw := candidates_pairwise g inputs st
    rw [hsplit] at hpw hmem
    rcases List.mem_append.mp hmem with h | h
    · exact absurd (hgt _ h) (lt_irrefl γ)
    · rcases List.mem_cons.mp h with h | h
      · have : i = j := congrArg Cand.cf h
        omega
      · have hR := (List.pairwise_cons.mp (List.pairwise_append.mp hpw).2.1).1
          _ h
        have := hR rfl
        dsimp only at this
        omega

/-- C3 witness: with two equal-cost producers of `o`, the pop never
selects the function registered second; and repeated dispatch of the same
arguments coincides. -/
theorem claim3_witness :
    dispatch exGraphTie [("a", Value.vint 0)] ["o"] =
      dispatch exGraphTie [("a", Value.vint 0)] ["o"] ∧
    selectBest (candidates exGraphOrder [("a", Value.vint 0)]
        (initState exGraphOrder [("a", Value.vint 0)])) ≠
      some ⟨2, "o", 1⟩ := by
  constructor
  · exact claim3_determinism_tiebreak.1 exGraphTie exGraphTie
      [("a", Value.vint 0)] [("a", Value.vint 0)] ["o"] ["o"] rfl rfl rfl
  · exact claim3_determinism_tiebreak.2 exGraphOrder [("a", Value.vint 0)]
      (initState exGraphOrder [("a", Value.vint 0)]) 2 "o" 0 1 (by decide)
      (by decide)

/-- C4: during one run every function's callable is invoked at most once
(no duplicate invocation records); every invocation coincides with one of
the function's outputs being settled by it, never eagerly when its inputs
become ready; hence a function that never produces a settled output - one
never on the cheapest path - is never invoked at all. -/
theorem claim4_lazy_invocation (g : Graph) (inputs : List (String × Value))
    (req : List String) (hwf : GraphWF g) (hi : InputsWF inputs) :
    ((dispatchRun g inputs req).invocations.map (·.idx)).Nodup ∧
    (∀ inv ∈ (dispatchRun g inputs req).invocations,
      ∃ s ∈ (dispatchRun g inputs req).settled, s.producer = some inv.idx) ∧
    (∀ i : Nat,
      (∀ s ∈ (dispatchRun g inputs req).settled, s.producer ≠ some i) →
      ∀ inv ∈ (dispatchRun g inputs req).invocations, inv.idx ≠ i) := by
  have hInv := @inv_dispatchRun g inputs req hwf hi
  refine ⟨hInv.invNodup, hInv.invProd, ?_⟩
  intro i hns inv hinv hidx
  obtain ⟨s, hs, hsp⟩ := hInv.invProd inv hinv
  rw [hidx] at hsp
  exact hns s hs hsp

/-- C4 witness: in the two-producer example only the winning producer is
invoked, each invocation settles an output, and invocations are unique. -/
theorem claim4_witness :
    ((dispatchRun exGraphTie [("a", Value.vint 0)] ["o"]).invocations.map
      (·.idx)).Nodup ∧
    (∀ inv ∈ (dispatchRun exGraphTie [("a", Value.vint 0)] ["o"]).invocations,
      inv.idx ≠ 1) := by
  constructor
  · exact (claim4_lazy_invocation exGraphTie [("a", Value.vint 0)] ["o"]
      (by decide) (by decide)).1
  · exact (claim4_lazy_invocation exGraphTie [("a", Value.vint 0)] ["o"]
      (by decide) (by decide)).2.2 1 (by decide)

/-- C5: a function node whose input-domain predicate rejects the raw
supplied inputs map is permanently discarded for the run - it is never
invoked, never recorded as failed, never the producer of a settlement -
and each of its outputs, when producible no other way (no other producer,
not supplied as input, no default), is absent from `solution`.  The
predicate is evaluated on the raw `inputs` argument of the call by
construction of `candidates`. -/
theorem claim5_domain_gating (g : Graph) (inputs : List (String × Value))
    (req : List String) (hwf : GraphWF g) (hi : InputsWF inputs)
    (i : Nat) (f : FuncNode) (p : List (String × Value) → Bool)
    (hget : g.funcs.get? i = some f) (hdom : f.domain = some p)
    (hp : p inputs = false) :
    (∀ s ∈ (dispatchRun g inputs req).settled, s.producer ≠ some i) ∧
    (∀ inv ∈ (dispatchRun g inputs req).invocations, inv.idx ≠ i) ∧
    (i ∉ (dispatchRun g inputs req).failed) ∧
    (∀ o ∈ f.outputs,
      (∀ j fj, g.funcs.get? j = some fj → o ∈ fj.outputs → j = i) →
      inputs.lookup o = none →
      (∀ dn ∈ g.datas, dn.did = o → dn.default = none) →
      (solutionOf (dispatchRun g inputs req)).lookup o = none) := by
  have hInv := @inv_dispatchRun g inputs req hwf hi
  have hdOK : domainOK f inputs = false := by
    unfold domainOK
    rw [hdom]
    exact hp
  have hprod : ∀ s ∈ (dispatchRun g inputs req).settled,
      s.producer ≠ some i := by
    intro s hs hpr
    obtain ⟨f2, hg2, _, hdom2, _, _⟩ := hInv.prov s hs i hpr
    rw [hget] at hg2
    injection hg2 with hf2
    subst hf2
    rw [hdOK] at hdom2
    cases hdom2
  refine ⟨hprod, ?_, ?_, ?_⟩
  · intro inv hinv hidx
    obtain ⟨s, hs, hsp⟩ := hInv.invProd inv hinv
    rw [hidx] at hsp
    exact hprod s hs hsp
  · intro hif
    obtain ⟨f2, hg2, hdom2, _⟩ := hInv.failedSpec i hif
    rw [hget] at hg2
    injection hg2 with hf2
    subst hf2
    rw [hdOK] at hdom2
    cases hdom2
  · intro o _ hsole hlook hdnf
    rw [solutionOf_lookup]
    rcases he : entryOf (dispatchRun g inputs req) o with _ | e
    · rfl
    · exfalso
      have hsid := entryOf_sid he
      have hmem := entryOf_mem he
      rcases hpr : e.producer with _ | j
      · obtain ⟨hsrc, _⟩ := hInv.provNone e hmem hpr
        rcases hsrc with h1 | ⟨dn, hdn, hdid, hds⟩
        · rw [hsid, hlook] at h1
          cases h1
        · rw [hdnf dn hdn (by rw [hdid, hsid])] at hds
          cases hds
      · obtain ⟨fj, hgj, houtj, _, _, _⟩ := hInv.prov e hmem j hpr
        rw [hsid] at houtj
        have hj := hsole j fj hgj houtj
        subst hj
        exact hprod e hmem hpr

/-- C5 witness: the spec's own example - the sole producer of `out` is
gated on `mode = 'A'`; dispatching with `mode = 'B'` leaves `out` absent
and the producer untouched. -/
theorem claim5_witness :
    (solutionOf (dispatchRun exGraphDom
      [("mode", Value.vstr "B"), ("a", Value.vint 1)] ["out"])).lookup "out" =
      none := by
  refine (claim5_domain_gating exGraphDom
    [("mode", Value.vstr "B"), ("a", Value.vint 1)] ["out"] (by decide)
    (by decide) 0 _
    (fun ins => ins.lookup "mode" == some (Value.vstr "A"))
    rfl rfl (by decide)).2.2.2 "out" (by decide) ?_ (by decide) ?_
  · intro j fj hj hout
    cases j with
    | zero => rfl
    | succ n => simp [exGraphDom] at hj
  · intro dn hdn _
    exact absurd hdn (List.not_mem_nil dn)

/-- C6: a function whose callable raises at its (sole, lazy) invocation is
caught: the node is recorded in the workflow's failed-node annotations,
none of its outputs is ever settled by it, and the run still reaches its
normal fixpoint returning partial results; concretely, a backup producer
of the same output still satisfies it. -/
theorem claim6_failure_absorption (g : Graph) (inputs : List (String × Value))
    (req : List String) (hwf : GraphWF g) (hi : InputsWF inputs) (i : Nat)
    (hfail : i ∈ (dispatchRun g inputs req).failed)
    (hninv : ∀ inv ∈ (dispatchRun g inputs req).invocations, inv.idx ≠ i) :
    i ∈ (finalWorkflow (dispatchRun g inputs req)).failures ∧
    (∀ s ∈ (dispatchRun g inputs req).settled, s.producer ≠ some i) ∧
    isDone g inputs req (dispatchRun g inputs req) = true ∧
    ((solutionOf (dispatchRun exGraphFail [("a", Value.vint 0)] ["o"])).lookup
        "o" = some (Value.vint 7) ∧
      0 ∈ (dispatchRun exGraphFail [("a", Value.vint 0)] ["o"]).failed) := by
  have hInv := @inv_dispatchRun g inputs req hwf hi
  refine ⟨hfail, ?_, dispatchRun_done g inputs req, by decide, by decide⟩
  intro s hs hpr
  obtain ⟨_, _, _, _, _, inv, hinvmem, hidx, _⟩ := hInv.prov s hs i hpr
  exact hninv inv hinvmem hidx

/-- C6 witness: in the failing-producer example the cheap producer raises,
is annotated as failed, settles nothing, and the backup still produces
`o`. -/
theorem claim6_witness :
    0 ∈ (finalWorkflow (dispatchRun exGraphFail [("a", Value.vint 0)]
      ["o"])).failures ∧
    (solutionOf (dispatchRun exGraphFail [("a", Value.vint 0)] ["o"])).lookup
      "o" = some (Value.vint 7) := by
  have h := claim6_failure_absorption exGraphFail [("a", Value.vint 0)] ["o"]
    (by decide) (by decide) 0 (by decide) (by decide)
  exact ⟨h.1, h.2.2.2.1⟩

/-- C7: corrected return shape.  `dispatch` returns the pair
`(workflow, solution)` in that order (draw.py line 74: `w, o =
dsp.dispatch()`); the solution maps every settled data id to its value -
a superset of the resolvable requested outputs - and a requested output
that cannot be resolved is simply absent from the solution while dispatch
still returns normally. -/
theorem claim7_return_shape (g : Graph) (inputs : List (String × Value))
    (req : List String) :
    dispatchPy g inputs req =
      (PyObj.graph (finalWorkflow (dispatchRun g inputs req)),
        PyObj.dict (solutionOf (dispatchRun g inputs req))) ∧
    (∀ d, (((dispatch g inputs req).2.lookup d)).isSome =
      settledQ (dispatchRun g inputs req) d) ∧
    (∀ d e, entryOf (dispatchRun g inputs req) d = some e →
      (dispatch g inputs req).2.lookup d = some e.value) ∧
    ((solutionOf (dispatchRun exGraphTie [("a", Value.vint 0)]
        ["o", "zzz"])).lookup "zzz" = none ∧
      (solutionOf (dispatchRun exGraphTie [("a", Value.vint 0)]
        ["o", "zzz"])).lookup "o" = some (Value.vint 10)) := by
  refine ⟨rfl, ?_, ?_, by decide, by decide⟩
  · intro d
    exact solution_keys (dispatchRun g inputs req) d
  · intro d e he
    show (solutionOf (dispatchRun g inputs req)).lookup d = some e.value
    rw [solutionOf_lookup, he]
    rfl

/-- C7 witness: the shape equation and the settled-value lookup at a
concrete run. -/
theorem claim7_witness :
    dispatchPy exGraphTie [("a", Value.vint 0)] ["o"] =
      (PyObj.graph (finalWorkflow (dispatchRun exGraphTie
        [("a", Value.vint 0)] ["o"])),
       PyObj.dict (solutionOf (dispatchRun exGraphTie
        [("a", Value.vint 0)] ["o"]))) ∧
    (dispatch exGraphTie [("a", Value.vint 0)] ["o"]).2.lookup "o" =
      some (Value.vint 10) := by
  refine ⟨(claim7_return_shape exGraphTie [("a", Value.vint 0)] ["o"]).1, ?_⟩
  exact (claim7_return_shape exGraphTie [("a", Value.vint 0)] ["o"]).2.2.1
    "o" ⟨"o", Value.vint 10, 1, some 0⟩ (by decide)

/-- C7 counterexample: the claim as stated says the first component of
the returned pair is the solution mapping; in fact the first component is
the workflow graph, not the dict of settled values. -/
theorem claim7_counterexample :
    (dispatchPy exGraphTie [("a", Value.vint 0)] ["o"]).1 ≠
      PyObj.dict (solutionOf (dispatchRun exGraphTie [("a", Value.vint 0)]
        ["o"])) := by
  intro h
  exact PyObj.noConfusion h

/-- C8: corrected frame condition.  `dispatch` leaves the immutable
capability graph untouched and resolves from fresh per-call state - the
outputs do not depend on the previously stored workflow - but the run's
workflow IS stored on the dispatcher object (draw.py reads
`dsp.workflow` after the run), so the dispatcher object does not come
back unchanged. -/
theorem claim8_frame (d : Dispatcher) (inputs : List (String × Value))
    (req : List String) :
    (d.runDispatch inputs req).1.dmap = d.dmap ∧
    (d.runDispatch inputs req).1.workflow = (d.runDispatch inputs req).2.1 ∧
    (∀ d2 : Dispatcher, d2.dmap = d.dmap →
      (d2.runDispatch inputs req).2 = (d.runDispatch inputs req).2) := by
  refine ⟨rfl, rfl, ?_⟩
  intro d2 hd2
  unfold Dispatcher.runDispatch
  rw [hd2]

/-- C8 witness: a dispatcher with a different stored workflow over the
same graph produces the identical workflow and outputs. -/
theorem claim8_witness :
    (Dispatcher.runDispatch
        ⟨exGraphTie, ⟨[⟨"junk", Value.vnone, 7, none⟩], [], [0]⟩⟩
        [("a", Value.vint 0)] ["o"]).2 =
      (exDispatcher.runDispatch [("a", Value.vint 0)] ["o"]).2 :=
  (claim8_frame exDispatcher [("a", Value.vint 0)] ["o"]).2.2
    ⟨exGraphTie, ⟨[⟨"junk", Value.vnone, 7, none⟩], [], [0]⟩⟩ rfl

/-- C8 counterexample: the claim as stated says no workflow survives on
the dispatcher object, i.e. the dispatcher comes back from a run exactly
as it was; in fact the run's workflow is stored on it. -/
theorem claim8_counterexample :
    (exDispatcher.runDispatch [("a", Value.vint 0)] ["o"]).1 ≠
      exDispatcher := by
  intro h
  have hw := congrArg (fun d => d.workflow) h
  exact absurd hw (by decide)

/-- Core of the weight-preference argument: while `o` is unsettled, the
loop can never settle `o` through the heavier of two producers whose
required inputs all settle at the same maximal cost, because either the
lighter producer is already ready (and its strictly cheaper queue entry
beats the heavier one) or some input of the lighter producer settles
later - at a cost dominating the heavier settlement, which is impossible
since input costs are bounded by the common maximum. -/
theorem c1_loop {g : Graph} {inputs : List (String × Value)}
    {req : List String} (hwf : GraphWF g)
    {ia ib : Nat} {fa fb : FuncNode} {o : String} {cc : ℤ}
    (hga : g.funcs.get? ia = some fa) (hgb : g.funcs.get? ib = some fb)
    (hoa : o ∈ fa.outputs) (hwlt : fa.weight < fb.weight)
    (hdoma : domainOK fa inputs = true) :
    ∀ (n : Nat) (st : RState), Inv g inputs st → settledQ st o = false →
      ia ∉ (loopN g inputs req n st).failed →
      readyCost (loopN g inputs req n st) fa.inputs = some cc →
      readyCost (loopN g inputs req n st) fb.inputs = some cc →
      ∀ e, entryOf (loopN g inputs req n st) o = some e →
        e.producer ≠ some ib := by
  have hwfa : 0 ≤ fa.weight := hwf.1 fa (List.get?_mem hga)
  intro n
  induction n with
  | zero =>
    intro st _ ho _ _ _ e he
    unfold loopN at he
    have hq : settledQ st o = true := by
      unfold settledQ
      rw [he]
      rfl
    rw [hq] at ho
    cases ho
  | succ n ih =>
    intro st hInv ho hfaF hra hrb e he
    by_cases hd : isDone g inputs req st
    · rw [loopN, if_pos hd] at he
      have hq : settledQ st o = true := by
        unfold settledQ
        rw [he]
        rfl
      rw [hq] at ho
      cases ho
    · have hrw : loopN g inputs req (n + 1) st =
          loopN g inputs req n (runStep g inputs st) := by
        rw [loopN, if_neg hd]
      rw [hrw] at hfaF hra hrb he
      rcases hsel : selectBest (candidates g inputs st) with _ | c
      · rw [runStep_eq_of_none hsel] at hfaF hra hrb he
        exact ih st hInv ho hfaF hra hrb e he
      · rw [runStep_eq_of_some hsel] at hfaF hra hrb he
        have hInv2 : Inv g inputs (applyCand g st c) := by
          have h2 := inv_step hwf hInv
          rw [runStep_eq_of_some hsel] at h2
          exact h2
        have hsr := applyCand_stepResult g st c
        rcases stepResult_cases hsr with ⟨hse, hie, hfe⟩ | ⟨v, hse, hfe⟩
        · have ho2 : settledQ (applyCand g st c) o = false := by
            rw [settledQ_congr hse]
            exact ho
          exact ih (applyCand g st c) hInv2 ho2 hfaF hra hrb e he
        · by_cases hoc : c.cid = o
          · subst hoc
            have hentry : entryOf (applyCand g st c) c.cid =
                some ⟨c.cid, v, c.cost, some c.cf⟩ :=
              entryOf_append_self hse ho
            have he2 := entryOf_mono
              (loopN_extends g inputs req n (applyCand g st c)) hentry
            rw [he] at he2
            injection he2 with hee
            subst hee
            dsimp only
            intro hpe
            injection hpe with hcfib
            have hcmem := selectBest_mem hsel
            obtain ⟨_, _, f2, hget2, hout2, hnf2, hdom2, mB, hrB, hcostB⟩ :=
              mem_candidates.mp hcmem
            rw [hcfib, hgb] at hget2
            injection hget2 with hf2
            subst hf2
            have hextS : Extends st (applyCand g st c) :=
              stepResult_extends hsr
            have hextSF : Extends (applyCand g st c)
                (loopN g inputs req n (applyCand g st c)) :=
              loopN_extends g inputs req n (applyCand g st c)
            have hrBfin := readyCost_mono (extends_trans hextS hextSF) hrB
            rw [hrb] at hrBfin
            injection hrBfin with hmBcc
            rcases hcaseA : readyCost st fa.inputs with _ | mA
            · obtain ⟨x, hx, hxnone⟩ := readyCost_none hcaseA
              obtain ⟨ex, hexfin, hexle⟩ := readyCost_mem hra hx
              by_cases hxo : c.cid = x
              · rw [← hxo] at hexfin
                rw [he] at hexfin
                injection hexfin with hxe
                have hexc : ex.cost = c.cost := by
                  rw [← hxe]
                have hcb : c.cost = fb.weight + mB := hcostB
                rw [hexc, hcb] at hexle
                omega
              · have hx2 : entryOf (applyCand g st c) x = none := by
                  rw [entryOf_append hse x, hxnone]
                  simp only [Option.none_or]
                  rw [if_neg (by simpa using hxo)]
                have hlb := loopN_cost_lb hwf n (applyCand g st c) hInv2 x
                  hx2 ex hexfin ⟨c.cid, v, c.cost, some c.cf⟩
                  (by rw [hse]
                      exact List.mem_append_right _
                        (List.mem_singleton.mpr rfl))
                have hlb2 : c.cost ≤ ex.cost := hlb
                rw [hcostB] at hlb2
                omega
            · have hrAfin := readyCost_mono (extends_trans hextS hextSF)
                hcaseA
              rw [hra] at hrAfin
              injection hrAfin with hmAcc
              have hfaSt : ia ∉ st.failed := fun hmem =>
                hfaF (failed_mono (extends_trans hextS hextSF) hmem)
              have hcoutIds : c.cid ∈ outIds g := by
                unfold outIds
                rw [List.mem_dedup, List.mem_flatMap]
                exact ⟨fa, List.get?_mem hga, hoa⟩
              have hcand : (⟨fa.weight + mA, c.cid, ia⟩ : Cand) ∈
                  candidates g inputs st :=
                mem_candidates.mpr ⟨hcoutIds, ho, fa, hga, hoa, hfaSt,
                  hdoma, mA, hcaseA, rfl⟩
              have hminle := selectBest_min hsel _ hcand
              dsimp only at hminle
              rw [hcostB] at hminle
              omega
          · have ho2 : settledQ (applyCand g st c) o = false := by
              unfold settledQ
              rcases hoe : entryOf st o with _ | z
              · rw [entryOf_append hse o, hoe]
                simp only [Option.none_or]
                rw [if_neg (by simpa using hoc)]
                rfl
              · exfalso
                have : settledQ st o = true := by
                  unfold settledQ
                  rw [hoe]
                  rfl
                rw [this] at ho
                cases ho
            exact ih (applyCand g st c) hInv2 ho2 hfaF hra hrb e he

/-- C1: corrected weight preference.  When two function nodes are the only
sources of an output `o` (its only producers, `o` neither supplied as an
input nor holding a default), both are eligible - in domain, the lighter
one never discarded - and their required inputs settle at the same
maximal cost, then `o` is settled by the lower-weight producer: the
settlement carries that producer's index and its invocation's value, and
the workflow records that invocation. -/
theorem claim1_weight_preference (g : Graph) (inputs : List (String × Value))
    (req : List String) (hwf : GraphWF g) (hi : InputsWF inputs)
    (ia ib : Nat) (fa fb : FuncNode) (o : String) (cc : ℤ)
    (hga : g.funcs.get? ia = some fa) (hgb : g.funcs.get? ib = some fb)
    (hoa : o ∈ fa.outputs) (hob : o ∈ fb.outputs)
    (hwlt : fa.weight < fb.weight)
    (hdoma : domainOK fa inputs = true)
    (hsole : ∀ k fk, g.funcs.get? k = some fk → o ∈ fk.outputs →
      k = ia ∨ k = ib)
    (hnoinp : inputs.lookup o = none)
    (hnodef : ∀ dn ∈ g.datas, dn.did = o → dn.default = none)
    (hfaOK : ia ∉ (dispatchRun g inputs req).failed)
    (hra : readyCost (dispatchRun g inputs req) fa.inputs = some cc)
    (hrb : readyCost (dispatchRun g inputs req) fb.inputs = some cc)
    (e : Settlement) (he : entryOf (dispatchRun g inputs req) o = some e) :
    e.producer = some ia ∧
    ∃ inv ∈ (dispatchRun g inputs req).invocations, inv.idx = ia ∧
      inv.outs.get? (fa.outputs.findIdx (· == o)) = some e.value := by
  have hinit : settledQ (initState g inputs) o = false := by
    rcases h : settledQ (initState g inputs) o
    · rfl
    · exfalso
      rcases initState_settledQ h with h1 | ⟨dn, hdn, hdid, hds⟩
      · rw [hnoinp] at h1
        cases h1
      · rw [hnodef dn hdn hdid] at hds
        cases hds
  have hnib : e.producer ≠ some ib :=
    c1_loop hwf hga hgb hoa hwlt hdoma (fuelOf g) (initState g inputs)
      (inv_init hwf hi) hinit hfaOK hra hrb e he
  have hInvF := @inv_dispatchRun g inputs req hwf hi
  have hmem := entryOf_mem he
  have hsid : e.sid = o := entryOf_sid he
  rcases hp : e.producer with _ | k
  · exfalso
    obtain ⟨hsrc, _⟩ := hInvF.provNone e hmem hp
    rcases hsrc with h1 | ⟨dn, hdn, hdid, hds⟩
    · rw [hsid, hnoinp] at h1
      cases h1
    · rw [hnodef dn hdn (by rw [hdid, hsid])] at hds
      cases hds
  · obtain ⟨fk, hgk, houtk, _, _, inv, hinvmem, hidx, hval⟩ :=
      hInvF.prov e hmem k hp
    rw [hsid] at houtk
    rcases hsole k fk hgk houtk with hk | hk
    · subst hk
      rw [hga] at hgk
      injection hgk with hfk
      subst hfk
      rw [hsid] at hval
      exact ⟨rfl, inv, hinvmem, hidx, hval⟩
    · subst hk
      exact absurd hp hnib

/-- C1 witness: in the two-producer example with weights 1 and 5 and
equal-cost inputs, `o` settles via the weight-1 producer and carries its
invocation's value. -/
theorem claim1_witness :
    (⟨"o", Value.vint 10, 1, some 0⟩ : Settlement).producer = some 0 ∧
    ∃ inv ∈ (dispatchRun exGraphTie [("a", Value.vint 0)]
        ["o"]).invocations, inv.idx = 0 ∧
      inv.outs.get? 0 = some (Value.vint 10) := by
  exact claim1_weight_preference exGraphTie [("a", Value.vint 0)] ["o"]
    (by decide) (by decide) 0 1 _ _ "o" 0 rfl rfl (by decide) (by decide)
    (by decide) rfl
    (by intro k fk hk hout
        match k with
        | 0 => exact Or.inl rfl
        | 1 => exact Or.inr rfl
        | n + 2 => simp [exGraphTie] at hk)
    (by decide)
    (by intro dn hdn _
        exact absurd hdn (List.not_mem_nil dn))
    (by decide) (by decide) (by decide)
    ⟨"o", Value.vint 10, 1, some 0⟩ (by decide)

/-- C1 counterexample: as stated over every capability graph, the claim
fails - with a third, lighter producer of the same output present, the
two hypothesised functions are still eligible with equal-cost inputs, yet
the settlement of `o` carries the third function's result, not the
lower-weight one of the pair. -/
theorem claim1_counterexample :
    ¬ (∀ (g : Graph) (inputs : List (String × Value)) (req : List String),
      GraphWF g → InputsWF inputs →
      ∀ (ia ib : Nat) (fa fb : FuncNode) (o : String) (cc : ℤ),
        g.funcs.get? ia = some fa → g.funcs.get? ib = some fb →
        o ∈ fa.outputs → o ∈ fb.outputs → fa.weight < fb.weight →
        domainOK fa inputs = true → domainOK fb inputs = true →
        ia ∉ (dispatchRun g inputs req).failed →
        readyCost (dispatchRun g inputs req) fa.inputs = some cc →
        readyCost (dispatchRun g inputs req) fb.inputs = some cc →
        ∀ e, entryOf (dispatchRun g inputs req) o = some e →
          e.producer = some ia) := by
  intro hclaim
  have h := hclaim exGraphThird [("a", Value.vint 0)] ["o"] (by decide)
    (by decide) 0 1 _ _ "o" 0 rfl rfl (by decide) (by decide) (by decide)
    rfl rfl (by decide) (by decide) (by decide)
    ⟨"o", Value.vint 99, 0, some 2⟩ (by decide)
  simp at h

end CO2
